import Mathlib

/-! Shallow embedding of the vocabulary resolution engine of the
german-vocab-bot repository: dictionary response normalization and quota
tracking from src/api/dictionaries.js, candidate scoring, selection and
batch enrichment from src/services/vocabularyManager.js, the two-tier
vocabulary cache from src/services/vocabularyCache.js, and the rule-based
enrichment fallback from src/services/aiEnrichment.js.

Modelling conventions: JavaScript numbers are rationals, JavaScript
strings are Lean strings over their character lists, absent object
fields are none, wall-clock instants are natural numbers of
milliseconds (calendar instants for the quota tracker), and network
requests are oracles passed in as arguments. Regular-expression
operations of the source are translated into character-list scanners
that implement the same matching discipline. -/

namespace Dictionaries

/-- Word characters of a JavaScript regular expression without the
unicode flag: ASCII letters, digits and underscore. -/
def isJsWordChar (c : Char) : Bool :=
  ('a' ≤ c && c ≤ 'z') || ('A' ≤ c && c ≤ 'Z') || ('0' ≤ c && c ≤ '9') || c = '_'

/-- Whitespace recognised by the \s class and by String.prototype.trim;
the embedding covers the ASCII whitespace characters and the
no-break space. -/
def isJsWhitespace (c : Char) : Bool :=
  c = ' ' || c = '\t' || c = '\n' || c = '\r' || c = '\x0b' || c = '\x0c' || c = ' '

/-- Lower-casing of a single character as String.prototype.toLowerCase
performs it, restricted to the alphabet that occurs in this program:
ASCII letters and the German umlaut vowels. -/
def jsToLowerChar (c : Char) : Char :=
  if 'A' ≤ c && c ≤ 'Z' then Char.ofNat (c.toNat + 32)
  else if c = 'Ä' then 'ä'
  else if c = 'Ö' then 'ö'
  else if c = 'Ü' then 'ü'
  else c

/-- Drop characters up to and including the first closing angle
bracket; none when no closing bracket exists.  This is the span the
regular expression <[^>]*> consumes after an opening bracket. -/
def dropThroughGt : List Char → Option (List Char)
  | [] => none
  | c :: rest => if c = '>' then some rest else dropThroughGt rest

/-- Fuelled worker for the global replacement of <[^>]*> by the empty
string; the fuel only serves structural termination and is always
instantiated with the length of the list. -/
def stripTagsF : ℕ → List Char → List Char
  | 0, l => l
  | fuel + 1, l =>
    match l with
    | [] => []
    | c :: rest =>
      if c = '<' then
        match dropThroughGt rest with
        | some rest2 => stripTagsF fuel rest2
        | none => c :: rest
      else c :: stripTagsF fuel rest

/-- text.replace with the pattern <[^>]*>, the empty string and the
global flag: every opening bracket followed later by a closing bracket
is removed together with everything up to that closing bracket; an
opening bracket with no closing bracket after it ends the scan, because
no further match can start. -/
def stripTags (l : List Char) : List Char := stripTagsF l.length l

/-- Worker for collapsing whitespace runs; the flag records whether the
previous character belonged to a whitespace run. -/
def collapseWsAux : Bool → List Char → List Char
  | _, [] => []
  | prevWs, c :: rest =>
    if isJsWhitespace c then
      if prevWs then collapseWsAux true rest
      else ' ' :: collapseWsAux true rest
    else c :: collapseWsAux false rest

/-- text.replace with the pattern \s+, a single space and the global
flag: every maximal nonempty whitespace run becomes one space. -/
def collapseWs (l : List Char) : List Char := collapseWsAux false l

/-- String.prototype.trim: remove leading and trailing whitespace. -/
def jsTrim (l : List Char) : List Char :=
  ((l.dropWhile isJsWhitespace).reverse.dropWhile isJsWhitespace).reverse

/-- cleanText of src/api/dictionaries.js: strip markup tags, collapse
whitespace runs to single spaces, trim. -/
def cleanText (s : String) : String :=
  String.mk (jsTrim (collapseWs (stripTags s.data)))

/-- A character list on which the tag stripper is the identity: every
opening angle bracket has no closing bracket after it. -/
def okTags : List Char → Bool
  | [] => true
  | c :: rest => if c = '<' then !rest.contains '>' else okTags rest

/-- No two adjacent characters are both whitespace. -/
def noWsRun : List Char → Bool
  | [] => true
  | [_] => true
  | a :: b :: rest => !(isJsWhitespace a && isJsWhitespace b) && noWsRun (b :: rest)

/-- The first character, when present, is not whitespace. -/
def headNotWs (l : List Char) : Bool :=
  match l.head? with
  | none => true
  | some c => !isJsWhitespace c

/-- Every whitespace character of the list is the plain space. -/
def wsIsSpace (l : List Char) : Bool := l.all (fun c => !isJsWhitespace c || c = ' ')

theorem dropThroughGt_eq_none : ∀ {l : List Char}, '>' ∉ l → dropThroughGt l = none := by
  intro l
  induction l with
  | nil => intro _; rfl
  | cons c rest ih =>
    intro h
    simp only [List.mem_cons, not_or] at h
    simp only [dropThroughGt]
    rw [if_neg (fun hc => h.1 hc.symm), ih h.2]

theorem not_mem_of_dropThroughGt_none : ∀ {l : List Char}, dropThroughGt l = none → '>' ∉ l := by
  intro l
  induction l with
  | nil => intro _; simp
  | cons c rest ih =>
    intro h
    simp only [dropThroughGt] at h
    split at h
    · exact absurd h (by simp)
    · rename_i hc
      simp only [List.mem_cons, not_or]
      exact ⟨fun hh => hc hh.symm, ih h⟩

theorem dropThroughGt_length : ∀ {l l2 : List Char}, dropThroughGt l = some l2 →
    l2.length < l.length := by
  intro l
  induction l with
  | nil => intro l2 h; simp [dropThroughGt] at h
  | cons c rest ih =>
    intro l2 h
    simp only [dropThroughGt] at h
    split at h
    · cases h; simp
    · have := ih h; simp; omega

theorem okTags_of_not_mem {l : List Char} (h : '>' ∉ l) : okTags l = true := by
  induction l with
  | nil => rfl
  | cons c rest ih =>
    simp only [List.mem_cons, not_or] at h
    simp only [okTags]
    split
    · simpa using h.2
    · exact ih h.2

theorem okTags_cons {c : Char} {l : List Char} (h : okTags (c :: l) = true) :
    okTags l = true := by
  simp only [okTags] at h
  split at h
  · exact okTags_of_not_mem (by simpa using h)
  · exact h

theorem okTags_cons_lt {l : List Char} (h : okTags ('<' :: l) = true) : '>' ∉ l := by
  simpa [okTags] using h

theorem okTags_cons_of_ne {c : Char} {l : List Char} (hc : ¬ c = '<')
    (h : okTags l = true) : okTags (c :: l) = true := by
  simpa [okTags, hc] using h

theorem stripTagsF_okTags : ∀ (fuel : ℕ) (l : List Char), l.length ≤ fuel →
    okTags (stripTagsF fuel l) = true := by
  intro fuel
  induction fuel with
  | zero =>
    intro l h
    have : l = [] := List.eq_nil_of_length_eq_zero (Nat.le_zero.mp h)
    subst this; rfl
  | succ fuel ih =>
    intro l h
    match l with
    | [] => rfl
    | c :: rest =>
      simp only [stripTagsF]
      split
      · rename_i hc
        cases hgt : dropThroughGt rest with
        | some rest2 =>
          have hlen : rest2.length < rest.length := dropThroughGt_length hgt
          exact ih rest2 (by simp at h; omega)
        | none =>
          subst hc
          exact okTags_of_not_mem (by
            simp only [List.mem_cons, not_or]
            exact ⟨by decide, not_mem_of_dropThroughGt_none hgt⟩)
      · rename_i hc
        exact okTags_cons_of_ne hc (ih rest (by simp at h; omega))

theorem okTags_stripTags (l : List Char) : okTags (stripTags l) = true :=
  stripTagsF_okTags l.length l le_rfl

theorem stripTagsF_id_of_okTags : ∀ (fuel : ℕ) (l : List Char), okTags l = true →
    stripTagsF fuel l = l := by
  intro fuel
  induction fuel with
  | zero => intro l _; rfl
  | succ fuel ih =>
    intro l h
    match l with
    | [] => rfl
    | c :: rest =>
      simp only [stripTagsF]
      split
      · rename_i hc
        subst hc
        rw [dropThroughGt_eq_none (okTags_cons_lt h)]
      · rename_i hc
        rw [ih rest (okTags_cons h)]

theorem stripTags_id_of_okTags {l : List Char} (h : okTags l = true) :
    stripTags l = l :=
  stripTagsF_id_of_okTags l.length l h

theorem collapseWsAux_not_mem : ∀ (b : Bool) (l : List Char) (c : Char), ¬ c = ' ' →
    c ∉ l → c ∉ collapseWsAux b l := by
  intro b l
  induction l generalizing b with
  | nil => intro c _ _; simp [collapseWsAux]
  | cons d rest ih =>
    intro c hc hl
    simp only [List.mem_cons, not_or] at hl
    simp only [collapseWsAux]
    split
    · split
      · exact ih true c hc hl.2
      · simp only [List.mem_cons, not_or]
        exact ⟨hc, ih true c hc hl.2⟩
    · simp only [List.mem_cons, not_or]
      exact ⟨hl.1, ih false c hc hl.2⟩

theorem okTags_collapseWsAux : ∀ (b : Bool) (l : List Char), okTags l = true →
    okTags (collapseWsAux b l) = true := by
  intro b l
  induction l generalizing b with
  | nil => intro _; rfl
  | cons c rest ih =>
    intro h
    simp only [collapseWsAux]
    split
    · rename_i hws
      have h1 : okTags rest = true := okTags_cons h
      split
      · exact ih true h1
      · exact okTags_cons_of_ne (by decide) (ih true h1)
    · by_cases hc : c = '<'
      · subst hc
        have h2 : '>' ∉ collapseWsAux false rest :=
          collapseWsAux_not_mem false rest '>' (by decide) (okTags_cons_lt h)
        simpa [okTags] using h2
      · exact okTags_cons_of_ne hc (ih false (okTags_cons h))

theorem okTags_dropWhile (p : Char → Bool) : ∀ (l : List Char), okTags l = true →
    okTags (l.dropWhile p) = true := by
  intro l
  induction l with
  | nil => intro _; rfl
  | cons c rest ih =>
    intro h
    simp only [List.dropWhile]
    split
    · exact ih (okTags_cons h)
    · exact h

theorem okTags_append_left : ∀ (l₁ l₂ : List Char), okTags (l₁ ++ l₂) = true →
    okTags l₁ = true := by
  intro l₁ l₂
  induction l₁ with
  | nil => intro _; rfl
  | cons c rest ih =>
    intro h
    simp only [List.cons_append, okTags] at h ⊢
    split at h <;> rename_i hc
    · rw [if_pos hc]
      simp_all
    · rw [if_neg hc]
      exact ih h

theorem jsTrim_prefix_suffix (l : List Char) :
    ∃ t : List Char, l.dropWhile isJsWhitespace = jsTrim l ++ t := by
  refine ⟨((l.dropWhile isJsWhitespace).reverse.takeWhile isJsWhitespace).reverse, ?_⟩
  unfold jsTrim
  conv_lhs => rw [← List.reverse_reverse (l.dropWhile isJsWhitespace)]
  conv_lhs =>
    rw [← List.takeWhile_append_dropWhile (p := isJsWhitespace)
      (l := (l.dropWhile isJsWhitespace).reverse)]
  rw [List.reverse_append]

theorem okTags_jsTrim {l : List Char} (h : okTags l = true) :
    okTags (jsTrim l) = true := by
  obtain ⟨t, ht⟩ := jsTrim_prefix_suffix l
  have h1 : okTags (l.dropWhile isJsWhitespace) = true := okTags_dropWhile _ l h
  rw [ht] at h1
  exact okTags_append_left _ _ h1

theorem collapseWsAux_headNotWs : ∀ (l : List Char),
    headNotWs (collapseWsAux true l) = true := by
  intro l
  induction l with
  | nil => rfl
  | cons c rest ih =>
    simp only [collapseWsAux]
    split
    · simpa using ih
    · rename_i hws
      simpa [headNotWs] using hws

theorem noWsRun_cons_of_head {a : Char} {l : List Char}
    (hhead : isJsWhitespace a = false ∨ headNotWs l = true)
    (h : noWsRun l = true) : noWsRun (a :: l) = true := by
  cases l with
  | nil => rfl
  | cons b rest =>
    simp only [noWsRun, Bool.and_eq_true]
    refine ⟨?_, h⟩
    rcases hhead with h1 | h1
    · simp [h1]
    · simp only [headNotWs, List.head?_cons] at h1
      have hb : isJsWhitespace b = false := by simpa using h1
      simp [hb]

theorem collapseWsAux_noWsRun : ∀ (l : List Char) (b : Bool),
    noWsRun (collapseWsAux b l) = true := by
  intro l
  induction l with
  | nil => intro b; rfl
  | cons c rest ih =>
    intro b
    simp only [collapseWsAux]
    split
    · split
      · exact ih true
      · exact noWsRun_cons_of_head (Or.inr (collapseWsAux_headNotWs rest)) (ih true)
    · rename_i hws
      exact noWsRun_cons_of_head (Or.inl (by simpa using hws)) (ih false)

theorem collapseWsAux_wsIsSpace : ∀ (l : List Char) (b : Bool),
    wsIsSpace (collapseWsAux b l) = true := by
  intro l
  induction l with
  | nil => intro b; rfl
  | cons c rest ih =>
    intro b
    simp only [collapseWsAux]
    split
    · split
      · exact ih true
      · simpa [wsIsSpace] using ih true
    · rename_i hws
      have := ih false
      simpa [wsIsSpace, hws] using this

theorem noWsRun_cons_tail' {a : Char} {l : List Char} (h : noWsRun (a :: l) = true) :
    noWsRun l = true := by
  cases l with
  | nil => rfl
  | cons b rest =>
    simp only [noWsRun, Bool.and_eq_true] at h
    exact h.2

theorem noWsRun_dropWhile (p : Char → Bool) : ∀ (l : List Char), noWsRun l = true →
    noWsRun (l.dropWhile p) = true := by
  intro l
  induction l with
  | nil => intro _; rfl
  | cons c rest ih =>
    intro h
    simp only [List.dropWhile]
    split
    · exact ih (noWsRun_cons_tail' h)
    · exact h

theorem noWsRun_append_left : ∀ (l₁ l₂ : List Char), noWsRun (l₁ ++ l₂) = true →
    noWsRun l₁ = true := by
  intro l₁ l₂
  induction l₁ with
  | nil => intro _; rfl
  | cons a rest ih =>
    intro h
    cases rest with
    | nil => rfl
    | cons b tl =>
      simp only [List.cons_append, noWsRun, Bool.and_eq_true] at h
      have h2 : noWsRun (b :: tl) = true := ih (by simpa using h.2)
      simp only [noWsRun, Bool.and_eq_true]
      exact ⟨h.1, h2⟩

theorem wsIsSpace_dropWhile (p : Char → Bool) : ∀ (l : List Char), wsIsSpace l = true →
    wsIsSpace (l.dropWhile p) = true := by
  intro l
  induction l with
  | nil => intro _; rfl
  | cons c rest ih =>
    intro h
    simp only [wsIsSpace, List.all_cons, Bool.and_eq_true] at h
    simp only [List.dropWhile]
    split
    · exact ih h.2
    · simp only [wsIsSpace, List.all_cons, Bool.and_eq_true]
      exact h

theorem wsIsSpace_append_left {l₁ l₂ : List Char} (h : wsIsSpace (l₁ ++ l₂) = true) :
    wsIsSpace l₁ = true := by
  simp only [wsIsSpace, List.all_append, Bool.and_eq_true] at h
  exact h.1

theorem noWsRun_jsTrim {l : List Char} (h : noWsRun l = true) :
    noWsRun (jsTrim l) = true := by
  obtain ⟨t, ht⟩ := jsTrim_prefix_suffix l
  have h1 : noWsRun (l.dropWhile isJsWhitespace) = true := noWsRun_dropWhile _ l h
  rw [ht] at h1
  exact noWsRun_append_left _ _ h1

theorem wsIsSpace_jsTrim {l : List Char} (h : wsIsSpace l = true) :
    wsIsSpace (jsTrim l) = true := by
  obtain ⟨t, ht⟩ := jsTrim_prefix_suffix l
  have h1 := wsIsSpace_dropWhile isJsWhitespace l h
  rw [ht] at h1
  exact wsIsSpace_append_left h1

theorem headNotWs_dropWhile : ∀ (l : List Char),
    headNotWs (l.dropWhile isJsWhitespace) = true := by
  intro l
  induction l with
  | nil => rfl
  | cons c rest ih =>
    simp only [List.dropWhile]
    split
    · exact ih
    · rename_i hws
      simpa [headNotWs] using hws

theorem headNotWs_append_left {l₁ l₂ : List Char} (h : headNotWs (l₁ ++ l₂) = true) :
    l₁ = [] ∨ headNotWs l₁ = true := by
  cases l₁ with
  | nil => exact Or.inl rfl
  | cons c rest =>
    simp only [List.cons_append, headNotWs, List.head?_cons] at h ⊢
    exact Or.inr h

theorem headNotWs_jsTrim (l : List Char) : headNotWs (jsTrim l) = true := by
  obtain ⟨t, ht⟩ := jsTrim_prefix_suffix l
  have h1 : headNotWs (l.dropWhile isJsWhitespace) = true := headNotWs_dropWhile l
  rw [ht] at h1
  rcases headNotWs_append_left h1 with h2 | h2
  · rw [h2]; rfl
  · exact h2

theorem lastNotWs_jsTrim (l : List Char) : headNotWs (jsTrim l).reverse = true := by
  unfold jsTrim
  rw [List.reverse_reverse]
  exact headNotWs_dropWhile _

theorem collapseWsAux_true_of_headNotWs {l : List Char} (h : headNotWs l = true) :
    collapseWsAux true l = collapseWsAux false l := by
  cases l with
  | nil => rfl
  | cons c rest =>
    simp only [headNotWs, List.head?_cons, Bool.not_eq_true'] at h
    simp [collapseWsAux, h]

theorem wsIsSpace_cons_tail {a : Char} {l : List Char} (h : wsIsSpace (a :: l) = true) :
    wsIsSpace l = true := by
  simp only [wsIsSpace, List.all_cons, Bool.and_eq_true] at h
  exact h.2

theorem collapseWs_id : ∀ {l : List Char}, wsIsSpace l = true → noWsRun l = true →
    collapseWsAux false l = l := by
  intro l
  induction l with
  | nil => intro _ _; rfl
  | cons c rest ih =>
    intro hs hr
    simp only [collapseWsAux]
    split
    · rename_i hws
      have hsp : c = ' ' := by
        simp only [wsIsSpace, List.all_cons, Bool.and_eq_true, Bool.or_eq_true,
          Bool.not_eq_true', decide_eq_true_eq] at hs
        rcases hs.1 with h1 | h1
        · exact absurd hws (by simp [h1])
        · exact h1
      have hhead : headNotWs rest = true := by
        cases rest with
        | nil => rfl
        | cons b tl =>
          simp only [noWsRun, Bool.and_eq_true] at hr
          have := hr.1
          simp only [headNotWs, List.head?_cons]
          simpa [hws] using this
      rw [if_neg (by simp), collapseWsAux_true_of_headNotWs hhead,
        ih (wsIsSpace_cons_tail hs) (noWsRun_cons_tail' hr), hsp]
    · rw [ih (wsIsSpace_cons_tail hs) (noWsRun_cons_tail' hr)]

theorem dropWhile_id_of_headNotWs {l : List Char} (h : headNotWs l = true) :
    l.dropWhile isJsWhitespace = l := by
  cases l with
  | nil => rfl
  | cons c rest =>
    simp only [headNotWs, List.head?_cons, Bool.not_eq_true'] at h
    simp [List.dropWhile, h]

theorem jsTrim_id {l : List Char} (hh : headNotWs l = true)
    (hl : headNotWs l.reverse = true) : jsTrim l = l := by
  unfold jsTrim
  rw [dropWhile_id_of_headNotWs hh, dropWhile_id_of_headNotWs hl, List.reverse_reverse]

/-- C10: the text normalizer cleanText of src/api/dictionaries.js (strip
markup tags, collapse whitespace runs to single spaces, trim) is
idempotent, and its output never has two adjacent whitespace characters
nor leading or trailing whitespace. -/
theorem cleanText_idempotent_normalized (s : String) :
    cleanText (cleanText s) = cleanText s ∧
    noWsRun (cleanText s).data = true ∧
    headNotWs (cleanText s).data = true ∧
    headNotWs (cleanText s).data.reverse = true := by
  have hdata : ∀ l : List Char, (String.mk l).data = l := fun _ => rfl
  set out := jsTrim (collapseWs (stripTags s.data)) with hout
  have hok : okTags out = true :=
    okTags_jsTrim (okTags_collapseWsAux false _ (okTags_stripTags s.data))
  have hrun : noWsRun out = true := noWsRun_jsTrim (collapseWsAux_noWsRun _ false)
  have hsp : wsIsSpace out = true := wsIsSpace_jsTrim (collapseWsAux_wsIsSpace _ false)
  have hhead : headNotWs out = true := headNotWs_jsTrim _
  have hlast : headNotWs out.reverse = true := lastNotWs_jsTrim _
  refine ⟨?_, hrun, hhead, hlast⟩
  show String.mk (jsTrim (collapseWs (stripTags out))) = String.mk out
  rw [stripTags_id_of_okTags hok]
  unfold collapseWs
  rw [collapseWs_id hsp hrun, jsTrim_id hhead hlast]

/-- Attempt of the pattern (der|die|das) with a word boundary on each
side at the head of the list, given that the boundary before the head
holds; returns the lower-cased matched article. -/
def matchArticleHere : List Char → Option String
  | c1 :: c2 :: c3 :: rest =>
    let w := [jsToLowerChar c1, jsToLowerChar c2, jsToLowerChar c3]
    let boundaryAfter :=
      match rest with
      | [] => true
      | d :: _ => !isJsWordChar d
    if boundaryAfter then
      if w = "der".data then some "der"
      else if w = "die".data then some "die"
      else if w = "das".data then some "das"
      else none
    else none
  | _ => none

/-- Left-to-right scan of text.match with the pattern
der|die|das, word boundaries and the case-insensitive flag; the Boolean
argument records whether the previous character is a word character,
which decides the word boundary in front of a candidate match. -/
def findArticleAux : Bool → List Char → Option String
  | _, [] => none
  | prevW, c :: rest =>
    match (if prevW then none else matchArticleHere (c :: rest)) with
    | some a => some a
    | none => findArticleAux (isJsWordChar c) rest

/-- extractArticle of src/api/dictionaries.js: first whole-word,
case-insensitive occurrence of der, die or das, lower-cased; none when
no such occurrence exists. -/
def extractArticle (text : String) : Option String := findArticleAux false text.data

/-- Declarative word boundary in front of position i: position zero
uses the given flag for the character before the list, any later
position looks at the preceding character. -/
def articleBoundaryBefore (prev0W : Bool) (l : List Char) : ℕ → Bool
  | 0 => !prev0W
  | j + 1 =>
    match l[j]? with
    | some d => !isJsWordChar d
    | none => true

/-- Declarative match of a whole-word article at position i. -/
def articleMatchAt (prev0W : Bool) (l : List Char) (i : ℕ) : Option String :=
  if articleBoundaryBefore prev0W l i then matchArticleHere (l.drop i) else none

/-- Declarative leftmost whole-word article occurrence: the first
position, scanned in increasing order, at which the pattern matches. -/
def firstArticleSpec (l : List Char) : Option String :=
  (List.range l.length).findSome? (articleMatchAt false l)

/-- Splitting with the separator pattern \s+ as String.prototype.split
performs it: tokens between maximal whitespace runs, with an empty
token at an end of the string that touches a separator.  The state is
some acc while a token (accumulated reversed) is open and none inside a
separator run. -/
def splitOnWsAux : Option (List Char) → List Char → List (List Char)
  | some acc, [] => [acc.reverse]
  | none, [] => [[]]
  | some acc, c :: rest =>
    if isJsWhitespace c then acc.reverse :: splitOnWsAux none rest
    else splitOnWsAux (some (c :: acc)) rest
  | none, c :: rest =>
    if isJsWhitespace c then splitOnWsAux none rest
    else splitOnWsAux (some [c]) rest

/-- text.split with the pattern \s+. -/
def splitOnWs (l : List Char) : List (List Char) := splitOnWsAux (some []) l

/-- Lower-casing of a character list, restricted as jsToLowerChar. -/
def lowerList (l : List Char) : List Char := l.map jsToLowerChar

/-- String.prototype.includes on character lists: the pattern occurs as
a contiguous substring. -/
def includesSub (pat : List Char) : List Char → Bool
  | [] => pat.isEmpty
  | c :: rest => pat.isPrefixOf (c :: rest) || includesSub pat rest

/-- extractWord of src/api/dictionaries.js: first whitespace-separated
token of the cleaned text that contains the search word
case-insensitively and is not itself an article; the search word when
no token qualifies. -/
def extractWord (text searchWord : String) : String :=
  let ct := cleanText text
  let words := splitOnWs ct.data
  match words.find? (fun w =>
    includesSub (lowerList searchWord.data) (lowerList w) &&
    !(lowerList w = "der".data || lowerList w = "die".data || lowerList w = "das".data)) with
  | some w => String.mk w
  | none => searchWord

/-- Content of the first delimited group, for the patterns
bracket-open [^close]+ bracket-close used by extractPronunciation and
extractGrammar: scan for the opening delimiter, take the nonempty run
of characters other than the closing delimiter, and require the
closing delimiter right after it. -/
def extractDelimited (openC closeC : Char) : List Char → Option (List Char)
  | [] => none
  | c :: rest =>
    if c = openC then
      let content := rest.takeWhile (fun d => !(d = closeC))
      if content.isEmpty then extractDelimited openC closeC rest
      else
        match rest.drop content.length with
        | d :: _ => if d = closeC then some content else extractDelimited openC closeC rest
        | [] => extractDelimited openC closeC rest
    else extractDelimited openC closeC rest

/-- extractPronunciation of src/api/dictionaries.js: content of the
first square-bracket pair, else the empty string. -/
def extractPronunciation (text : String) : String :=
  match extractDelimited '[' ']' text.data with
  | some content => String.mk content
  | none => ""

/-- extractGrammar of src/api/dictionaries.js: content of the first
curly-brace pair, else the empty string. -/
def extractGrammar (text : String) : String :=
  match extractDelimited (Char.ofNat 123) (Char.ofNat 125) text.data with
  | some content => String.mk content
  | none => ""

/-- One arab node of a PONS response, reduced to the fields the word
data extraction reads: the header text and the source texts of the
example list (none models a missing source field). -/
structure PonsArab where
  header : String
  examples : List (Option String)
deriving DecidableEq

/-- extractExample of src/api/dictionaries.js: cleaned source text of
the first example, else the empty string. -/
def extractExample (arab : PonsArab) : String :=
  match arab.examples with
  | [] => ""
  | e :: _ => cleanText (e.getD "")

/-- Word data extracted from one PONS arab node; the article field is a
plain string because the extractor substitutes das when extraction
finds nothing. -/
structure PonsWordData where
  word : String
  article : String
  pronunciation : String
  grammar : String
  «example» : String
deriving DecidableEq

/-- extractPONSWordData of src/api/dictionaries.js. -/
def extractPONSWordData (arab : PonsArab) (searchWord : String) : Option PonsWordData :=
  let cleanHeader := cleanText arab.header
  let article := extractArticle cleanHeader
  let word := extractWord cleanHeader searchWord
  let pronunciation := extractPronunciation cleanHeader
  let grammar := extractGrammar cleanHeader
  let exampleText := extractExample arab
  if word = "" then none
  else some ⟨word, article.getD "das", pronunciation, grammar, exampleText⟩

/-- One translation node of a Linguatools response, reduced to the
fields the extraction reads. -/
structure LinguatoolsTranslation where
  source : Option String
  target : Option String
  pronunciation : Option String
  «example» : Option String
  confidence : Option ℚ
  frequency : Option ℚ
deriving DecidableEq

/-- The source text a Linguatools translation node contributes: its
source field when present and nonempty, else the search word. -/
def linguatoolsSourceText (t : LinguatoolsTranslation) (searchWord : String) : String :=
  match t.source with
  | some s => if s = "" then searchWord else s
  | none => searchWord

/-- Word data extracted from one Linguatools translation node. -/
structure LinguatoolsWordData where
  word : String
  article : String
  translation : String
  pronunciation : String
  «example» : String
deriving DecidableEq

/-- extractLinguatoolsWordData of src/api/dictionaries.js. -/
def extractLinguatoolsWordData (t : LinguatoolsTranslation) (searchWord : String) :
    Option LinguatoolsWordData :=
  let sourceText := linguatoolsSourceText t searchWord
  let targetText := t.target.getD ""
  let article := extractArticle sourceText
  let word := extractWord sourceText searchWord
  let pronunciation := t.pronunciation.getD ""
  let exampleText := t.«example».getD ""
  if word = "" || targetText = "" then none
  else some ⟨word, article.getD "das", cleanText targetText, pronunciation, exampleText⟩

theorem findArticleAux_eq_spec : ∀ (l : List Char) (prevW : Bool),
    findArticleAux prevW l = (List.range l.length).findSome? (articleMatchAt prevW l) := by
  intro l
  induction l with
  | nil => intro prevW; rfl
  | cons c rest ih =>
    intro prevW
    have hzero : articleMatchAt prevW (c :: rest) 0 =
        (if prevW then none else matchArticleHere (c :: rest)) := by
      simp only [articleMatchAt, articleBoundaryBefore, List.drop_zero]
      cases prevW <;> simp
    have hsucc : ∀ i, articleMatchAt prevW (c :: rest) (i + 1) =
        articleMatchAt (isJsWordChar c) rest i := by
      intro i
      simp only [articleMatchAt]
      have hb : articleBoundaryBefore prevW (c :: rest) (i + 1) =
          articleBoundaryBefore (isJsWordChar c) rest i := by
        cases i with
        | zero => simp [articleBoundaryBefore]
        | succ j => simp [articleBoundaryBefore]
      rw [hb]
      rfl
    have hrange : List.range (c :: rest).length =
        0 :: (List.range rest.length).map Nat.succ := by
      simp [List.range_succ_eq_map]
    rw [hrange]
    simp only [findArticleAux]
    cases hm : (if prevW then none else matchArticleHere (c :: rest)) with
    | some a =>
      simp only [List.findSome?_cons, hzero, hm]
    | none =>
      simp only [List.findSome?_cons, hzero, hm]
      rw [List.findSome?_map, ih (isJsWordChar c)]
      congr 1
      funext i
      exact (hsucc i).symm

/-- C1 (amended): the article extractor returns the leftmost
whole-word, case-insensitive occurrence of der, die or das in its input
text, lower-cased, and none when no such occurrence exists; but when it
returns none, a normalized candidate built from that text carries the
default article das, both for PONS and for Linguatools word data. -/
theorem extractArticle_spec_and_default :
    (∀ text : String, extractArticle text = firstArticleSpec text.data) ∧
    (∀ (arab : PonsArab) (searchWord : String) (d : PonsWordData),
      extractPONSWordData arab searchWord = some d →
      extractArticle (cleanText arab.header) = none → d.article = "das") ∧
    (∀ (t : LinguatoolsTranslation) (searchWord : String) (d : LinguatoolsWordData),
      extractLinguatoolsWordData t searchWord = some d →
      extractArticle (linguatoolsSourceText t searchWord) = none → d.article = "das") := by
  refine ⟨fun text => findArticleAux_eq_spec text.data false, ?_, ?_⟩
  · intro arab searchWord d hd hnone
    simp only [extractPONSWordData] at hd
    split at hd
    · cases hd
    · rw [hnone] at hd
      cases hd
      rfl
  · intro t searchWord d hd hnone
    simp only [extractLinguatoolsWordData] at hd
    split at hd
    · cases hd
    · rw [hnone] at hd
      cases hd
      rfl

/-- C1 counterexample: the header text Haus contains no whole-word
article, extraction returns none, yet the normalized PONS candidate
built from this header carries the article das rather than none. -/
theorem extractArticle_default_counterexample :
    extractArticle (cleanText "Haus") = none ∧
    (extractPONSWordData ⟨"Haus", []⟩ "Haus").map PonsWordData.article = some "das" := by
  exact ⟨by decide, by decide⟩

/-- Witness for the amended C1 theorem at a concrete header. -/
theorem extractArticle_spec_and_default_witness :
    extractPONSWordData ⟨"Haus", []⟩ "Haus" = some ⟨"Haus", "das", "", "", ""⟩ ∧
    extractArticle (cleanText "Haus") = none ∧
    (⟨"Haus", "das", "", "", ""⟩ : PonsWordData).article = "das" :=
  ⟨by decide, by decide,
    extractArticle_spec_and_default.2.1 ⟨"Haus", []⟩ "Haus" _ (by decide) (by decide)⟩

/-- A calendar instant: the index of its month (year times twelve plus
month) and a tick inside the month, zero being the first instant of the
month.  Date comparison is lexicographic. -/
structure SimTime where
  monthIdx : ℕ
  tick : ℕ
deriving DecidableEq

/-- The numeric comparison a is less than or equal to b on dates. -/
def timeLe (a b : SimTime) : Bool :=
  a.monthIdx < b.monthIdx || (a.monthIdx = b.monthIdx && a.tick ≤ b.tick)

/-- new Date(now.getFullYear(), now.getMonth() + 1, 1): the first
instant of the month after the given instant. -/
def startOfNextMonth (t : SimTime) : SimTime := ⟨t.monthIdx + 1, 0⟩

/-- One entry of the quotaManager of src/api/dictionaries.js. -/
structure QuotaState where
  used : ℕ
  limit : ℕ
  resetDate : SimTime
deriving DecidableEq

/-- hasQuotaAvailable of src/api/dictionaries.js: lazily reset the
counter when the reset date has been reached, then compare used against
limit; returns the answer together with the updated entry. -/
def hasQuotaAvailable (q : QuotaState) (now : SimTime) : Bool × QuotaState :=
  if timeLe q.resetDate now then
    let q2 : QuotaState := ⟨0, q.limit, startOfNextMonth now⟩
    (decide (q2.used < q2.limit), q2)
  else (decide (q.used < q.limit), q)

/-- incrementQuotaUsage of src/api/dictionaries.js. -/
def incrementQuotaUsage (q : QuotaState) : QuotaState :=
  ⟨q.used + 1, q.limit, q.resetDate⟩

theorem incrementQuotaUsage_iterate (q : QuotaState) : ∀ n : ℕ,
    incrementQuotaUsage^[n] q = ⟨q.used + n, q.limit, q.resetDate⟩ := by
  intro n
  induction n with
  | zero => rfl
  | succ n ih =>
    rw [Function.iterate_succ_apply', ih]
    simp [incrementQuotaUsage, Nat.add_assoc]

/-- C5: starting from a fresh counter, after exactly limit consumptions
every quota check dated before the reset date answers false and leaves
the entry unchanged, while the first check dated at or after the reset
date answers true, resets the used counter to zero and advances the
reset date to the first instant of the next month. -/
theorem hasQuotaAvailable_exhaustion (q0 : QuotaState) (now : SimTime)
    (hused : q0.used = 0) (hlim : 0 < q0.limit) :
    (timeLe (incrementQuotaUsage^[q0.limit] q0).resetDate now = false →
      hasQuotaAvailable (incrementQuotaUsage^[q0.limit] q0) now =
        (false, incrementQuotaUsage^[q0.limit] q0)) ∧
    (timeLe (incrementQuotaUsage^[q0.limit] q0).resetDate now = true →
      hasQuotaAvailable (incrementQuotaUsage^[q0.limit] q0) now =
        (true, ⟨0, q0.limit, startOfNextMonth now⟩)) := by
  rw [incrementQuotaUsage_iterate, hused]
  constructor
  · intro hbefore
    simp only [hasQuotaAvailable, hbefore]
    simp
  · intro hafter
    simp only [hasQuotaAvailable, hafter]
    simpa using hlim

/-- Witness for the C5 theorem on a concrete quota entry and two
concrete check instants, one before and one after the reset date. -/
theorem hasQuotaAvailable_exhaustion_witness :
    ((⟨0, 1000, ⟨5, 0⟩⟩ : QuotaState).used = 0 ∧ 0 < (⟨0, 1000, ⟨5, 0⟩⟩ : QuotaState).limit) ∧
    hasQuotaAvailable (incrementQuotaUsage^[1000] ⟨0, 1000, ⟨5, 0⟩⟩) ⟨4, 77⟩ =
      (false, incrementQuotaUsage^[1000] ⟨0, 1000, ⟨5, 0⟩⟩) ∧
    hasQuotaAvailable (incrementQuotaUsage^[1000] ⟨0, 1000, ⟨5, 0⟩⟩) ⟨5, 3⟩ =
      (true, ⟨0, 1000, startOfNextMonth ⟨5, 3⟩⟩) :=
  ⟨⟨rfl, by decide⟩,
    (hasQuotaAvailable_exhaustion ⟨0, 1000, ⟨5, 0⟩⟩ ⟨4, 77⟩ rfl (by decide)).1
      (by rw [incrementQuotaUsage_iterate]; decide),
    (hasQuotaAvailable_exhaustion ⟨0, 1000, ⟨5, 0⟩⟩ ⟨5, 3⟩ rfl (by decide)).2
      (by rw [incrementQuotaUsage_iterate]; decide)⟩

end Dictionaries

namespace VocabularyManager

/-- A normalized vocabulary candidate as the scorer of
src/services/vocabularyManager.js reads it; absent fields are none,
absent numeric fields are zero (both are falsy in the source). -/
structure DictResult where
  word : String
  article : Option String
  translation_en : Option String
  example_sentence : Option String
  source : String
  confidence : ℚ
  frequency : ℚ
deriving DecidableEq

/-- The article penalty condition of calculateResultScore: article
missing or not one of der, die, das. -/
def badArticle (a : Option String) : Bool :=
  match a with
  | none => true
  | some s => !(s = "der" || s = "die" || s = "das")

/-- The translation penalty condition of calculateResultScore:
translation missing or shorter than two characters. -/
def badTranslation (t : Option String) : Bool :=
  match t with
  | none => true
  | some s => s.length < 2

/-- The example penalty condition of calculateResultScore: example
sentence missing or shorter than ten characters. -/
def badExample (e : Option String) : Bool :=
  match e with
  | none => true
  | some s => s.length < 10

/-- calculateResultScore of src/services/vocabularyManager.js.  The
truthiness guards on confidence and frequency are kept as in the
source; a zero value skips the corresponding summand. -/
def calculateResultScore (result : DictResult) : ℚ :=
  let score : ℚ := 0
  let score := if result.confidence ≠ 0 then score + result.confidence * 0.4 else score
  let score := if result.frequency ≠ 0 then score + min (result.frequency / 1000) 1 * 0.3
    else score
  let score := if result.source = "pons" then score + 0.2
    else if result.source = "linguatools" then score + 0.1 else score
  let score := if badArticle result.article then score - 0.3 else score
  let score := if badTranslation result.translation_en then score - 0.2 else score
  let score := if badExample result.example_sentence then score - 0.1 else score
  max 0 score

/-- The fixed per-source bonus of the score formula. -/
def sourcePreferenceBonus (source : String) : ℚ :=
  if source = "pons" then 0.2 else if source = "linguatools" then 0.1 else 0

/-- Stable insertion step for the descending sort scored.sort of
selectBestResult: an element goes in front of the first element of
strictly smaller or equal score, so that earlier input elements stay in
front of later ones with the same score. -/
def insertDesc (x : DictResult) : List DictResult → List DictResult
  | [] => [x]
  | y :: ys =>
    if calculateResultScore y ≤ calculateResultScore x then x :: y :: ys
    else y :: insertDesc x ys

/-- Stable descending sort by score, as the stable Array.prototype.sort
with the comparator b.score minus a.score produces it. -/
def sortByScoreDesc : List DictResult → List DictResult
  | [] => []
  | x :: xs => insertDesc x (sortByScoreDesc xs)

/-- selectBestResult of src/services/vocabularyManager.js: null on the
empty list, the sole element of a singleton, else the head of the
descending stable sort by score. -/
def selectBestResult (results : List DictResult) : Option DictResult :=
  match results with
  | [] => none
  | [r] => some r
  | _ => (sortByScoreDesc results).head?

/-- The first element of maximal score: a later element replaces the
current best only with a strictly greater score. -/
def firstMaxByScore : List DictResult → Option DictResult
  | [] => none
  | x :: xs =>
    match firstMaxByScore xs with
    | none => some x
    | some m => some (if calculateResultScore m ≤ calculateResultScore x then x else m)

theorem insertDesc_head (x : DictResult) (l : List DictResult) :
    (insertDesc x l).head? =
      some (match l.head? with
        | none => x
        | some y => if calculateResultScore y ≤ calculateResultScore x then x else y) := by
  cases l with
  | nil => rfl
  | cons y ys =>
    simp only [insertDesc, List.head?_cons]
    split <;> simp

theorem sortByScoreDesc_head (l : List DictResult) :
    (sortByScoreDesc l).head? = firstMaxByScore l := by
  induction l with
  | nil => rfl
  | cons x xs ih =>
    simp only [sortByScoreDesc, firstMaxByScore, insertDesc_head, ih]
    cases firstMaxByScore xs with
    | none => rfl
    | some m => rfl

theorem selectBestResult_eq_firstMax (l : List DictResult) :
    selectBestResult l = firstMaxByScore l := by
  match l with
  | [] => rfl
  | [r] => rfl
  | a :: b :: rest =>
    simp only [selectBestResult]
    exact sortByScoreDesc_head (a :: b :: rest)

theorem firstMaxByScore_spec : ∀ (l : List DictResult), l ≠ [] →
    ∃ (r : DictResult) (l₁ l₂ : List DictResult),
      firstMaxByScore l = some r ∧ l = l₁ ++ r :: l₂ ∧
      (∀ x ∈ l₁, calculateResultScore x < calculateResultScore r) ∧
      (∀ x ∈ l, calculateResultScore x ≤ calculateResultScore r) := by
  intro l
  induction l with
  | nil => intro h; exact absurd rfl h
  | cons x xs ih =>
    intro _
    cases hxs : xs with
    | nil =>
      exact ⟨x, [], [], by simp [firstMaxByScore], by simp, by simp, by simp⟩
    | cons b tl =>
      obtain ⟨m, l₁, l₂, hm, hsplit, hlt, hle⟩ := ih (by simp [hxs])
      rw [← hxs] at *
      by_cases hcmp : calculateResultScore m ≤ calculateResultScore x
      · refine ⟨x, [], xs, ?_, by simp, by simp, ?_⟩
        · simp [firstMaxByScore, hm, hcmp]
        · intro y hy
          rcases List.mem_cons.mp hy with h1 | h1
          · subst h1; exact le_refl _
          · exact le_trans (hle y h1) hcmp
      · push_neg at hcmp
        refine ⟨m, x :: l₁, l₂, ?_, by rw [hsplit]; simp, ?_, ?_⟩
        · simp only [firstMaxByScore, hm]
          rw [if_neg (not_le.mpr hcmp)]
        · intro y hy
          rcases List.mem_cons.mp hy with h1 | h1
          · subst h1; exact hcmp
          · exact hlt y h1
        · intro y hy
          rcases List.mem_cons.mp hy with h1 | h1
          · subst h1; exact le_of_lt hcmp
          · exact hle y h1

/-- The raw score before the clamp and before the article penalty is
applied; the two otherwise identical candidates of C3 share it. -/
def unpenalizedArticleScore (r : DictResult) : ℚ :=
  0.4 * r.confidence + 0.3 * min (r.frequency / 1000) 1 + sourcePreferenceBonus r.source -
    (if badTranslation r.translation_en then 0.2 else 0) -
    (if badExample r.example_sentence then 0.1 else 0)

theorem calculateResultScore_eq (r : DictResult) :
    calculateResultScore r =
      max 0 (0.4 * r.confidence + 0.3 * min (r.frequency / 1000) 1 +
        sourcePreferenceBonus r.source -
        (if badArticle r.article then 0.3 else 0) -
        (if badTranslation r.translation_en then 0.2 else 0) -
        (if badExample r.example_sentence then 0.1 else 0)) := by
  have h1 : ∀ s c : ℚ, (if c ≠ 0 then s + c * 0.4 else s) = s + 0.4 * c := by
    intro s c
    split
    · ring
    · rename_i h; push_neg at h; rw [h]; ring
  have h2 : ∀ s f : ℚ,
      (if f ≠ 0 then s + min (f / 1000) 1 * 0.3 else s) = s + 0.3 * min (f / 1000) 1 := by
    intro s f
    split
    · ring
    · rename_i h; push_neg at h; rw [h]; norm_num
  have h3 : ∀ (s : ℚ) (src : String),
      (if src = "pons" then s + 0.2 else if src = "linguatools" then s + 0.1 else s) =
        s + sourcePreferenceBonus src := by
    intro s src
    simp only [sourcePreferenceBonus]
    split_ifs <;> ring
  have h4 : ∀ (s : ℚ) (b : Bool) (p : ℚ), (if b then s - p else s) = s - (if b then p else 0) := by
    intro s b p
    cases b <;> simp
  simp only [calculateResultScore, h1, h2, h3, h4]
  congr 1
  ring

theorem calculateResultScore_eq_unpenalized (r : DictResult) :
    calculateResultScore r =
      max 0 (unpenalizedArticleScore r - (if badArticle r.article then 0.3 else 0)) := by
  rw [calculateResultScore_eq]
  congr 1
  simp only [unpenalizedArticleScore]
  ring

theorem selectBestResult_spec : ∀ (results : List DictResult), results ≠ [] →
    ∃ (r : DictResult) (l₁ l₂ : List DictResult),
      selectBestResult results = some r ∧ results = l₁ ++ r :: l₂ ∧
      (∀ x ∈ l₁, calculateResultScore x < calculateResultScore r) ∧
      (∀ x ∈ results, calculateResultScore x ≤ calculateResultScore r) := by
  intro results hne
  obtain ⟨r, l₁, l₂, hm, hsplit, hlt, hle⟩ := firstMaxByScore_spec results hne
  exact ⟨r, l₁, l₂, by rw [selectBestResult_eq_firstMax, hm], hsplit, hlt, hle⟩

/-- C2: the score of a candidate is 0.4 times its confidence plus 0.3
times min(frequency/1000, 1) plus the fixed per-source bonus minus the
three penalties, clamped below at zero; and on a nonempty candidate
list the selector returns the first candidate of maximal score: every
candidate before it scores strictly less, every candidate scores at
most as much. -/
theorem calculateResultScore_formula_and_selection :
    (∀ r : DictResult, calculateResultScore r =
      max 0 (0.4 * r.confidence + 0.3 * min (r.frequency / 1000) 1 +
        sourcePreferenceBonus r.source -
        (if badArticle r.article then 0.3 else 0) -
        (if badTranslation r.translation_en then 0.2 else 0) -
        (if badExample r.example_sentence then 0.1 else 0))) ∧
    (∀ results : List DictResult, results ≠ [] →
      ∃ (r : DictResult) (l₁ l₂ : List DictResult),
        selectBestResult results = some r ∧ results = l₁ ++ r :: l₂ ∧
        (∀ x ∈ l₁, calculateResultScore x < calculateResultScore r) ∧
        (∀ x ∈ results, calculateResultScore x ≤ calculateResultScore r)) :=
  ⟨calculateResultScore_eq, selectBestResult_spec⟩

/-- C3 (amended): for two candidates identical except for the article,
one valid and one missing or invalid, the valid one scores exactly 0.3
higher and is selected regardless of order, provided the shared raw
score without the article penalty is at least 0.3; below that the
clamp at zero shrinks the gap, and when both scores clamp to zero the
selector keeps whichever candidate comes first. -/
theorem validArticle_bonus (r₁ r₂ : DictResult)
    (hconf : r₁.confidence = r₂.confidence)
    (hfreq : r₁.frequency = r₂.frequency)
    (hsrc : r₁.source = r₂.source)
    (htr : r₁.translation_en = r₂.translation_en)
    (hex : r₁.example_sentence = r₂.example_sentence)
    (hv : badArticle r₁.article = false)
    (hinv : badArticle r₂.article = true)
    (hbase : 0.3 ≤ unpenalizedArticleScore r₁) :
    calculateResultScore r₁ = calculateResultScore r₂ + 0.3 ∧
    selectBestResult [r₁, r₂] = some r₁ ∧
    selectBestResult [r₂, r₁] = some r₁ := by
  have hbb : unpenalizedArticleScore r₂ = unpenalizedArticleScore r₁ := by
    simp [unpenalizedArticleScore, ← hconf, ← hfreq, ← hsrc, ← htr, ← hex]
  have hs1 : calculateResultScore r₁ = unpenalizedArticleScore r₁ := by
    rw [calculateResultScore_eq_unpenalized, hv]
    simp only [Bool.false_eq_true, if_false, sub_zero]
    exact max_eq_right (le_trans (by norm_num) hbase)
  have hs2 : calculateResultScore r₂ = unpenalizedArticleScore r₁ - 0.3 := by
    rw [calculateResultScore_eq_unpenalized, hinv, hbb]
    simp only [if_true]
    exact max_eq_right (by linarith)
  have hlt : calculateResultScore r₂ < calculateResultScore r₁ := by
    rw [hs1, hs2]; linarith
  refine ⟨by rw [hs1, hs2]; ring, ?_, ?_⟩
  · simp only [selectBestResult, sortByScoreDesc, insertDesc]
    rw [if_pos (le_of_lt hlt)]
    rfl
  · simp only [selectBestResult, sortByScoreDesc, insertDesc]
    rw [if_neg (not_le.mpr hlt)]
    rfl

/-- C3 counterexample: with every other field missing or empty, both
the valid-article and the invalid-article candidate clamp to score
zero, so the difference is zero rather than 0.3, and with the
invalid-article candidate listed first the selector keeps the
invalid-article candidate. -/
theorem validArticle_bonus_counterexample :
    calculateResultScore ⟨"Haus", some "der", none, none, "x", 0, 0⟩ -
      calculateResultScore ⟨"Haus", none, none, none, "x", 0, 0⟩ ≠ 0.3 ∧
    selectBestResult [⟨"Haus", none, none, none, "x", 0, 0⟩,
      ⟨"Haus", some "der", none, none, "x", 0, 0⟩] =
      some ⟨"Haus", none, none, none, "x", 0, 0⟩ := by
  have hx : sourcePreferenceBonus "x" = 0 := by
    simp [sourcePreferenceBonus]
  have hg : calculateResultScore ⟨"Haus", some "der", none, none, "x", 0, 0⟩ = 0 := by
    rw [calculateResultScore_eq]
    norm_num [badArticle, badTranslation, badExample, hx]
  have hb : calculateResultScore ⟨"Haus", none, none, none, "x", 0, 0⟩ = 0 := by
    rw [calculateResultScore_eq]
    norm_num [badArticle, badTranslation, badExample, hx]
  constructor
  · rw [hg, hb]; norm_num
  · simp only [selectBestResult, sortByScoreDesc, insertDesc, hg, hb]
    norm_num

/-- Witness for the amended C3 theorem on two concrete candidates with
a raw score of 0.6. -/
theorem validArticle_bonus_witness :
    calculateResultScore
        ⟨"Haus", some "der", some "house", some "Das Haus ist gut.", "pons", 1, 0⟩ =
      calculateResultScore
        ⟨"Haus", none, some "house", some "Das Haus ist gut.", "pons", 1, 0⟩ + 0.3 ∧
    selectBestResult
        [⟨"Haus", some "der", some "house", some "Das Haus ist gut.", "pons", 1, 0⟩,
          ⟨"Haus", none, some "house", some "Das Haus ist gut.", "pons", 1, 0⟩] =
      some ⟨"Haus", some "der", some "house", some "Das Haus ist gut.", "pons", 1, 0⟩ ∧
    selectBestResult
        [⟨"Haus", none, some "house", some "Das Haus ist gut.", "pons", 1, 0⟩,
          ⟨"Haus", some "der", some "house", some "Das Haus ist gut.", "pons", 1, 0⟩] =
      some ⟨"Haus", some "der", some "house", some "Das Haus ist gut.", "pons", 1, 0⟩ :=
  validArticle_bonus
    ⟨"Haus", some "der", some "house", some "Das Haus ist gut.", "pons", 1, 0⟩
    ⟨"Haus", none, some "house", some "Das Haus ist gut.", "pons", 1, 0⟩
    rfl rfl rfl rfl rfl (by decide) (by decide)
    (by
      have hbt : badTranslation (some "house") = false := by decide
      have hbe : badExample (some "Das Haus ist gut.") = false := by decide
      norm_num [unpenalizedArticleScore, hbt, hbe, sourcePreferenceBonus])

/-- Witness for the C2 theorem on a concrete two-candidate list. -/
theorem calculateResultScore_formula_and_selection_witness :
    ([⟨"Haus", some "das", some "house", none, "pons", 1, 0⟩,
      ⟨"Haus", none, none, none, "linguatools", 0, 0⟩] : List DictResult) ≠ [] ∧
    ∃ (r : DictResult) (l₁ l₂ : List DictResult),
      selectBestResult [⟨"Haus", some "das", some "house", none, "pons", 1, 0⟩,
        ⟨"Haus", none, none, none, "linguatools", 0, 0⟩] = some r ∧
      ([⟨"Haus", some "das", some "house", none, "pons", 1, 0⟩,
        ⟨"Haus", none, none, none, "linguatools", 0, 0⟩] : List DictResult) = l₁ ++ r :: l₂ ∧
      (∀ x ∈ l₁, calculateResultScore x < calculateResultScore r) ∧
      (∀ x ∈ ([⟨"Haus", some "das", some "house", none, "pons", 1, 0⟩,
        ⟨"Haus", none, none, none, "linguatools", 0, 0⟩] : List DictResult),
        calculateResultScore x ≤ calculateResultScore r) :=
  ⟨by simp,
    calculateResultScore_formula_and_selection.2
      [⟨"Haus", some "das", some "house", none, "pons", 1, 0⟩,
        ⟨"Haus", none, none, none, "linguatools", 0, 0⟩] (by simp)⟩

end VocabularyManager

namespace VocabularyCache

/-- cacheExpiry of src/services/vocabularyCache.js: twenty-four hours
in milliseconds. -/
def cacheExpiry : ℕ := 24 * 60 * 60 * 1000

/-- maxMemoryCache of src/services/vocabularyCache.js. -/
def maxMemoryCache : ℕ := 500

/-- One value of the memory cache Map: the cached data and the
insertion timestamp. -/
structure MemEntry (V : Type) where
  data : V
  timestamp : ℕ
deriving DecidableEq

/-- A JavaScript Map as an association list in insertion order. -/
def mapFind {α : Type} (m : List (String × α)) (k : String) : Option α :=
  (m.find? (fun p => p.1 == k)).map (fun p => p.2)

/-- Map.prototype.delete: remove the entry of the key, keeping the
order of the others. -/
def mapDelete {α : Type} (m : List (String × α)) (k : String) : List (String × α) :=
  m.filter (fun p => !(p.1 == k))

/-- Map.prototype.set: overwrite in place when the key exists,
otherwise append at the end of the insertion order. -/
def mapSet {α : Type} (m : List (String × α)) (k : String) (v : α) : List (String × α) :=
  if m.any (fun p => p.1 == k) then
    m.map (fun p => if p.1 == k then (k, v) else p)
  else m ++ [(k, v)]

/-- addToMemoryCache of src/services/vocabularyCache.js: when the map
has reached the capacity, delete the entry of the first key in
iteration order (the earliest-inserted key still present), then set the
new entry; on an empty full map the delete of the undefined first key
is a no-op. -/
def addToMemoryCache {V : Type} (maxN : ℕ) (m : List (String × MemEntry V))
    (key : String) (data : V) (now : ℕ) : List (String × MemEntry V) :=
  let m1 := if maxN ≤ m.length then m.tail else m
  mapSet m1 key ⟨data, now⟩

/-- One row of the vocabulary_cache table, keyed by word and language
pair. -/
structure DbCacheRow (V : Type) where
  parsed_data : V
  created_at : ℕ
  accessed_at : ℕ
  access_count : ℕ
deriving DecidableEq

/-- The two cache tiers: the memory Map keyed by cacheKey, and the
database table keyed by word and language pair. -/
structure CacheState (V : Type) where
  mem : List (String × MemEntry V)
  dbc : List ((String × String) × DbCacheRow V)
deriving DecidableEq

/-- SELECT on the vocabulary_cache table by word and language pair. -/
def dbFind {V : Type} (d : List ((String × String) × DbCacheRow V))
    (word languagePair : String) : Option (DbCacheRow V) :=
  (d.find? (fun p => p.1.1 == word && p.1.2 == languagePair)).map (fun p => p.2)

/-- removeFromDbCache of src/services/vocabularyCache.js. -/
def removeFromDbCache {V : Type} (st : CacheState V) (word languagePair : String) :
    CacheState V :=
  { st with dbc := st.dbc.filter (fun p => !(p.1.1 == word && p.1.2 == languagePair)) }

/-- updateCacheAccess of src/services/vocabularyCache.js: refresh
accessed_at and increment access_count of the row. -/
def updateCacheAccess {V : Type} (st : CacheState V) (now : ℕ)
    (word languagePair : String) : CacheState V :=
  { st with dbc := st.dbc.map (fun p =>
      if p.1.1 == word && p.1.2 == languagePair then
        (p.1, { p.2 with accessed_at := now, access_count := p.2.access_count + 1 })
      else p) }

/-- getFromDbCache of src/services/vocabularyCache.js: a row is expired
when now minus created_at exceeds (strictly) the expiry; an expired row
is deleted and reported as a miss, otherwise its parsed data is
returned. -/
def getFromDbCache {V : Type} (st : CacheState V) (now : ℕ)
    (word languagePair : String) : Option V × CacheState V :=
  match dbFind st.dbc word languagePair with
  | none => (none, st)
  | some row =>
    if cacheExpiry < now - row.created_at then
      (none, removeFromDbCache st word languagePair)
    else (some row.parsed_data, st)

/-- searchWord of src/services/vocabularyCache.js: memory tier first (a
hit requires now minus timestamp strictly below the expiry, an expired
entry is deleted), then the database tier (on a hit the access
bookkeeping is refreshed and the value promoted into the memory tier);
the external dictionary calls have been removed from this function, so
a double miss returns no data. -/
def searchWord {V : Type} (st : CacheState V) (now : ℕ)
    (word sourceLanguage targetLanguage : String) : Option V × CacheState V :=
  let languagePair := sourceLanguage ++ "-" ++ targetLanguage
  let cacheKey := word ++ "_" ++ languagePair
  let dbStep := fun (st1 : CacheState V) =>
    match getFromDbCache st1 now word languagePair with
    | (some data, st2) =>
      let st3 := updateCacheAccess st2 now word languagePair
      let st4 := { st3 with
        mem := addToMemoryCache maxMemoryCache st3.mem cacheKey data now }
      (some data, st4)
    | (none, st2) => (none, st2)
  match mapFind st.mem cacheKey with
  | some cached =>
    if now - cached.timestamp < cacheExpiry then (some cached.data, st)
    else dbStep { st with mem := mapDelete st.mem cacheKey }
  | none => dbStep st

/-- C4 (amended): an entry written at time T in the volatile tier is
returned unchanged at T plus d exactly when d is strictly below the
TTL, and is treated as absent when d is at least the TTL; an entry
written at time T in the durable tier is returned unchanged when d is
at most the TTL, and treated as absent only when d strictly exceeds the
TTL — at d equal to the TTL the durable tier still answers. -/
theorem cache_ttl_boundaries {V : Type} (v : V) (T d : ℕ)
    (word sl tl : String) (st : CacheState V) (row : DbCacheRow V) :
    (mapFind st.mem (word ++ "_" ++ (sl ++ "-" ++ tl)) = some ⟨v, T⟩ →
      d < cacheExpiry → searchWord st (T + d) word sl tl = (some v, st)) ∧
    (mapFind st.mem (word ++ "_" ++ (sl ++ "-" ++ tl)) = some ⟨v, T⟩ →
      cacheExpiry ≤ d → dbFind st.dbc word (sl ++ "-" ++ tl) = none →
      (searchWord st (T + d) word sl tl).1 = none) ∧
    (dbFind st.dbc word (sl ++ "-" ++ tl) = some row → row.created_at = T →
      d ≤ cacheExpiry → getFromDbCache st (T + d) word (sl ++ "-" ++ tl) =
      (some row.parsed_data, st)) ∧
    (dbFind st.dbc word (sl ++ "-" ++ tl) = some row → row.created_at = T →
      cacheExpiry < d → (getFromDbCache st (T + d) word (sl ++ "-" ++ tl)).1 = none) := by
  have hsub : T + d - T = d := by omega
  refine ⟨?_, ?_, ?_, ?_⟩
  · intro hmem hd
    simp only [searchWord, hmem, hsub]
    rw [if_pos hd]
  · intro hmem hd hdbnone
    simp only [searchWord, hmem, hsub]
    rw [if_neg (by omega)]
    simp only [getFromDbCache, hdbnone]
  · intro hrow hcreated hd
    simp only [getFromDbCache, hrow, hcreated, hsub]
    rw [if_neg (by omega)]
  · intro hrow hcreated hd
    simp only [getFromDbCache, hrow, hcreated, hsub]
    rw [if_pos (by omega)]

/-- C4 counterexample: a durable-tier entry created at time 0 and read
at exactly the TTL (a delay of at least the TTL) is still a hit, where
the claim demands a miss. -/
theorem cache_ttl_boundary_counterexample :
    cacheExpiry ≤ cacheExpiry ∧
    (getFromDbCache (V := ℕ)
      ⟨[], [(("Haus", "de-en"), ⟨7, 0, 0, 1⟩)]⟩ cacheExpiry "Haus" "de-en").1 = some 7 := by
  constructor
  · exact le_refl _
  · decide

/-- Witness for the amended C4 theorem: a volatile hit below the TTL, a
full miss at the TTL when the durable tier is empty, a durable hit
below the TTL, and a durable miss strictly above the TTL. -/
theorem cache_ttl_boundaries_witness :
    searchWord (V := ℕ) ⟨[("Haus_de-en", ⟨7, 100⟩)], [(("Haus", "de-en"), ⟨7, 100, 100, 1⟩)]⟩
      (100 + 5) "Haus" "de" "en" =
      (some 7, ⟨[("Haus_de-en", ⟨7, 100⟩)], [(("Haus", "de-en"), ⟨7, 100, 100, 1⟩)]⟩) ∧
    (searchWord (V := ℕ) ⟨[("Haus_de-en", ⟨7, 100⟩)], []⟩
      (100 + cacheExpiry) "Haus" "de" "en").1 = none ∧
    getFromDbCache (V := ℕ)
      ⟨[("Haus_de-en", ⟨7, 100⟩)], [(("Haus", "de-en"), ⟨7, 100, 100, 1⟩)]⟩
      (100 + 5) "Haus" ("de" ++ "-" ++ "en") =
      (some 7, ⟨[("Haus_de-en", ⟨7, 100⟩)], [(("Haus", "de-en"), ⟨7, 100, 100, 1⟩)]⟩) ∧
    (getFromDbCache (V := ℕ)
      ⟨[("Haus_de-en", ⟨7, 100⟩)], [(("Haus", "de-en"), ⟨7, 100, 100, 1⟩)]⟩
      (100 + (cacheExpiry + 1)) "Haus" ("de" ++ "-" ++ "en")).1 = none :=
  ⟨(cache_ttl_boundaries 7 100 5 "Haus" "de" "en"
      ⟨[("Haus_de-en", ⟨7, 100⟩)], [(("Haus", "de-en"), ⟨7, 100, 100, 1⟩)]⟩
      ⟨7, 100, 100, 1⟩).1 (by decide) (by decide),
    (cache_ttl_boundaries 7 100 cacheExpiry "Haus" "de" "en"
      ⟨[("Haus_de-en", ⟨7, 100⟩)], []⟩
      ⟨7, 100, 100, 1⟩).2.1 (by decide) (by decide) (by decide),
    (cache_ttl_boundaries 7 100 5 "Haus" "de" "en"
      ⟨[("Haus_de-en", ⟨7, 100⟩)], [(("Haus", "de-en"), ⟨7, 100, 100, 1⟩)]⟩
      ⟨7, 100, 100, 1⟩).2.2.1 (by decide) rfl (by decide),
    (cache_ttl_boundaries 7 100 (cacheExpiry + 1) "Haus" "de" "en"
      ⟨[("Haus_de-en", ⟨7, 100⟩)], [(("Haus", "de-en"), ⟨7, 100, 100, 1⟩)]⟩
      ⟨7, 100, 100, 1⟩).2.2.2 (by decide) rfl (by decide)⟩

/-- One insertion into the memory cache, with the key, value and
timestamp packaged as one entry. -/
def insertEntry {V : Type} (maxN : ℕ) (m : List (String × MemEntry V))
    (kv : String × MemEntry V) : List (String × MemEntry V) :=
  addToMemoryCache maxN m kv.1 kv.2.data kv.2.timestamp

theorem mapSet_append {V : Type} (m : List (String × MemEntry V)) (k : String)
    (v : MemEntry V) (h : ∀ p ∈ m, ¬ p.1 = k) : mapSet m k v = m ++ [(k, v)] := by
  unfold mapSet
  rw [if_neg]
  intro hany
  rcases List.any_eq_true.mp hany with ⟨p, hp, hpk⟩
  exact h p hp (by simpa using hpk)

theorem fold_insert_fill {V : Type} (maxN : ℕ) :
    ∀ (kvs acc : List (String × MemEntry V)),
      acc.length + kvs.length ≤ maxN →
      (((acc ++ kvs).map Prod.fst).Nodup) →
      List.foldl (insertEntry maxN) acc kvs = acc ++ kvs := by
  intro kvs
  induction kvs with
  | nil => intro acc _ _; simp
  | cons kv rest ih =>
    intro acc hlen hnodup
    have hnotin : ∀ p ∈ acc, ¬ p.1 = kv.1 := by
      intro p hp hpk
      have hmaps : (acc.map Prod.fst ++ kv.1 :: rest.map Prod.fst).Nodup := by
        simpa using hnodup
      rw [List.nodup_append] at hmaps
      exact hmaps.2.2 (List.mem_map_of_mem Prod.fst hp) (by simp [hpk])
    have hins : insertEntry maxN acc kv = acc ++ [kv] := by
      unfold insertEntry addToMemoryCache
      have hshort : ¬ maxN ≤ acc.length := by
        simp only [List.length_cons] at hlen; omega
      rw [if_neg hshort]
      exact mapSet_append acc kv.1 ⟨kv.2.data, kv.2.timestamp⟩ hnotin
    simp only [List.foldl_cons, hins]
    have hrec := ih (acc ++ [kv]) (by simp at hlen ⊢; omega) (by
      have : acc ++ [kv] ++ rest = acc ++ kv :: rest := by simp
      rw [this]; exact hnodup)
    rw [hrec]
    simp

/-- C6 (amended): inserting N plus one pairwise-distinct keys into an
initially empty volatile tier of capacity N, with N at least one,
evicts exactly one entry, the first-inserted one: the final content is
exactly the last N inserted entries in order, the final size is N, and
the first-inserted key is absent.  At capacity zero the delete of the
first key of an empty map is a no-op and the single inserted key
remains, so the restriction to positive capacity is necessary. -/
theorem memoryCache_fifo_eviction {V : Type} (N : ℕ) (hN : 1 ≤ N)
    (kvs : List (String × MemEntry V))
    (hlen : kvs.length = N + 1) (hnodup : (kvs.map Prod.fst).Nodup) :
    List.foldl (insertEntry N) [] kvs = kvs.tail ∧
    (List.foldl (insertEntry N) [] kvs).length = N ∧
    (∀ kv0 ∈ kvs.head?, kv0.1 ∉ (List.foldl (insertEntry N) [] kvs).map Prod.fst) := by
  have htake : (kvs.take N).length = N := by
    rw [List.length_take]; omega
  have hdrop : (kvs.drop N).length = 1 := by
    rw [List.length_drop]; omega
  obtain ⟨last, hlast⟩ := List.length_eq_one.mp hdrop
  have hsplitkvs : kvs = kvs.take N ++ [last] := by
    conv_lhs => rw [← List.take_append_drop N kvs]
    rw [hlast]
  have hnodup' : ((kvs.take N ++ [last]).map Prod.fst).Nodup := by
    rw [← hsplitkvs]; exact hnodup
  have hfill : List.foldl (insertEntry N) [] (kvs.take N) = kvs.take N := by
    have hres := fold_insert_fill N (kvs.take N) [] (by simp [htake])
      (by
        simp only [List.nil_append]
        have hsub : List.Sublist ((kvs.take N).map Prod.fst) (kvs.map Prod.fst) :=
          (List.take_sublist N kvs).map Prod.fst
        exact hnodup.sublist hsub)
    rw [List.nil_append] at hres
    exact hres
  have hlastnotin : ∀ p ∈ (kvs.take N).tail, ¬ p.1 = last.1 := by
    intro p hp hpk
    have hmaps : ((kvs.take N).map Prod.fst ++ [last.1]).Nodup := by
      simpa using hnodup'
    rw [List.nodup_append] at hmaps
    exact hmaps.2.2 (List.mem_map_of_mem Prod.fst (List.mem_of_mem_tail hp)) (by simp [hpk])
  have hmain : List.foldl (insertEntry N) [] kvs = (kvs.take N).tail ++ [last] := by
    conv_lhs => rw [hsplitkvs]
    rw [List.foldl_append, hfill]
    simp only [List.foldl_cons, List.foldl_nil]
    unfold insertEntry addToMemoryCache
    rw [if_pos (by omega)]
    exact mapSet_append _ last.1 ⟨last.2.data, last.2.timestamp⟩ hlastnotin
  have htail : kvs.tail = (kvs.take N).tail ++ [last] := by
    conv_lhs => rw [hsplitkvs]
    cases htk : kvs.take N with
    | nil => rw [htk] at htake; simp at htake; omega
    | cons a as => simp
  refine ⟨by rw [hmain, htail], ?_, ?_⟩
  · rw [hmain]
    have h1 : (kvs.take N).tail.length = N - 1 := by rw [List.length_tail, htake]
    simp only [List.length_append, h1, List.length_cons, List.length_nil]
    omega
  · intro kv0 hkv0
    rw [hmain, ← htail]
    cases kvs with
    | nil => simp at hlen
    | cons k t =>
      simp only [List.head?_cons, Option.mem_def, Option.some.injEq] at hkv0
      subst hkv0
      simp only [List.map_cons, List.nodup_cons] at hnodup
      simpa using hnodup.1

/-- C6 counterexample: at capacity zero the claim fails, because the
delete of the first key of the empty map is a no-op and the inserted
key remains, leaving size one instead of zero. -/
theorem memoryCache_fifo_eviction_counterexample :
    (List.foldl (insertEntry 0) []
      [("a", (⟨3, 0⟩ : MemEntry ℕ))]).length ≠ 0 := by
  decide

/-- Witness for the amended C6 theorem: three distinct keys into a tier
of capacity two. -/
theorem memoryCache_fifo_eviction_witness :
    1 ≤ 2 ∧
    ([("a", (⟨1, 0⟩ : MemEntry ℕ)), ("b", ⟨2, 1⟩), ("c", ⟨3, 2⟩)].length = 2 + 1) ∧
    List.foldl (insertEntry 2) []
        [("a", (⟨1, 0⟩ : MemEntry ℕ)), ("b", ⟨2, 1⟩), ("c", ⟨3, 2⟩)] =
      [("a", (⟨1, 0⟩ : MemEntry ℕ)), ("b", ⟨2, 1⟩), ("c", ⟨3, 2⟩)].tail :=
  ⟨by decide, by decide,
    (memoryCache_fifo_eviction 2 (by decide)
      [("a", (⟨1, 0⟩ : MemEntry ℕ)), ("b", ⟨2, 1⟩), ("c", ⟨3, 2⟩)]
      (by decide) (by decide)).1⟩

end VocabularyCache

namespace AIEnrichment

/-- String.prototype.endsWith. -/
def jsEndsWith (s suffixStr : String) : Bool := suffixStr.data.isSuffixOf s.data

/-- Upper-casing of a single character as String.prototype.toUpperCase
performs it, restricted to the alphabet that occurs in this program:
ASCII letters, the German umlaut vowels and sharp s (which uppercases
to the two-character string SS). -/
def jsToUpperCharStr (c : Char) : List Char :=
  if 'a' ≤ c && c ≤ 'z' then [Char.ofNat (c.toNat - 32)]
  else if c = 'ä' then ['Ä']
  else if c = 'ö' then ['Ö']
  else if c = 'ü' then ['Ü']
  else if c = 'ß' then ['S', 'S']
  else [c]

/-- word.charAt(0) === word.charAt(0).toUpperCase(): the first
character is unchanged by upper-casing; vacuously true of the empty
string. -/
def capitalizedInitial (word : String) : Bool :=
  match word.data with
  | [] => true
  | c :: _ => jsToUpperCharStr c = [c]

/-- guessArticle of src/services/aiEnrichment.js: none for a word with
a lowercase initial, die for the suffixes ung, heit, keit, das for
chen and lein, else der. -/
def guessArticle (word : String) : Option String :=
  if capitalizedInitial word then
    if jsEndsWith word "ung" || jsEndsWith word "heit" || jsEndsWith word "keit" then
      some "die"
    else if jsEndsWith word "chen" || jsEndsWith word "lein" then some "das"
    else some "der"
  else none

/-- guessWordType of src/services/aiEnrichment.js. -/
def guessWordType (word : String) : String :=
  if capitalizedInitial word then "noun"
  else if jsEndsWith word "en" || jsEndsWith word "ieren" then "verb"
  else "unknown"

/-- guessLevel of src/services/aiEnrichment.js. -/
def guessLevel (word : String) : String :=
  if word.length ≤ 5 then "A1"
  else if word.length ≤ 8 then "A2"
  else if word.length ≤ 12 then "B1"
  else "B2"

/-- The category keyword table of guessCategory of
src/services/aiEnrichment.js, in object-literal order. -/
def categoriesTable : List (String × List String) :=
  [("food", ["essen", "trinken", "brot", "food", "eat", "drink"]),
   ("family", ["mutter", "vater", "kind", "family", "mother", "father"]),
   ("home", ["haus", "wohnung", "zimmer", "house", "room", "home"]),
   ("body", ["kopf", "hand", "auge", "head", "hand", "eye"]),
   ("clothing", ["kleidung", "hemd", "hose", "clothes", "shirt"])]

/-- guessCategory of src/services/aiEnrichment.js: first category whose
keyword list has a member contained in the lower-cased concatenation of
word and translation; general when none matches. -/
def guessCategory (word translation : String) : String :=
  let combined := Dictionaries.lowerList (word.data ++ [' '] ++ translation.data)
  match categoriesTable.find? (fun cat =>
    cat.2.any (fun kw => Dictionaries.includesSub kw.data combined)) with
  | some cat => cat.1
  | none => "general"

/-- generateSimpleExample of src/services/aiEnrichment.js; a null
article would be interpolated as the text null by the template
literal. -/
def generateSimpleExample (word : String) : String :=
  if capitalizedInitial word then
    let articleStr :=
      match guessArticle word with
      | some a => a
      | none => "null"
    "Das ist " ++ articleStr ++ " " ++ word ++ "."
  else "Ich " ++ word ++ "."

/-- The object returned by getFallbackEnrichment of
src/services/aiEnrichment.js; source and confidence are fields of the
canonical record shape that the object literal does not set, so they
are none here. -/
structure FallbackEnrichment where
  article : Option String
  pronunciation : String
  example_sentence : String
  word_type : String
  level : String
  category : String
  source : Option String
  confidence : Option ℚ
deriving DecidableEq

/-- getFallbackEnrichment of src/services/aiEnrichment.js. -/
def getFallbackEnrichment (word translation : String) : FallbackEnrichment :=
  { article := guessArticle word
    pronunciation := ""
    example_sentence := generateSimpleExample word
    word_type := guessWordType word
    level := guessLevel word
    category := guessCategory word translation
    source := none
    confidence := none }

/-- tryWithModels of src/services/aiEnrichment.js over an explicit
model list; the call oracle stands for callModel, that is the network
request plus parseAIResponse. -/
def tryModelsList (call : String → Except String FallbackEnrichment) :
    List String → Except String FallbackEnrichment
  | [] => Except.error "All AI models failed"
  | m :: rest =>
    match call m with
    | Except.ok r => Except.ok r
    | Except.error _ => tryModelsList call rest

/-- enrichGermanWord of src/services/aiEnrichment.js: try the models in
the fixed order ollama, openai, anthropic; on total failure fall back
to the heuristic enrichment. -/
def enrichGermanWord (call : String → Except String FallbackEnrichment)
    (word translation : String) : FallbackEnrichment :=
  match tryModelsList call ["ollama", "openai", "anthropic"] with
  | Except.ok r => r
  | Except.error _ => getFallbackEnrichment word translation

/-- C8 (amended): when every model call fails (in particular with zero
configured providers), enrichment returns the fallback heuristic
result; for the word Schönheit it carries article die and word type
noun, but its source and confidence fields are absent (none), not
source fallback with low confidence. -/
theorem fallback_enrichment_schonheit (call : String → Except String FallbackEnrichment)
    (translation : String)
    (hfail : ∀ m ∈ (["ollama", "openai", "anthropic"] : List String),
      ∃ e, call m = Except.error e) :
    enrichGermanWord call "Schönheit" translation =
      getFallbackEnrichment "Schönheit" translation ∧
    (enrichGermanWord call "Schönheit" translation).article = some "die" ∧
    (enrichGermanWord call "Schönheit" translation).word_type = "noun" ∧
    (enrichGermanWord call "Schönheit" translation).source = none ∧
    (enrichGermanWord call "Schönheit" translation).confidence = none := by
  obtain ⟨e1, h1⟩ := hfail "ollama" (by simp)
  obtain ⟨e2, h2⟩ := hfail "openai" (by simp)
  obtain ⟨e3, h3⟩ := hfail "anthropic" (by simp)
  have hfb : enrichGermanWord call "Schönheit" translation =
      getFallbackEnrichment "Schönheit" translation := by
    simp only [enrichGermanWord, tryModelsList, h1, h2, h3]
  refine ⟨hfb, ?_, ?_, ?_, ?_⟩ <;> rw [hfb]
  · have : (getFallbackEnrichment "Schönheit" translation).article =
        guessArticle "Schönheit" := rfl
    rw [this]
    decide
  · have : (getFallbackEnrichment "Schönheit" translation).word_type =
        guessWordType "Schönheit" := rfl
    rw [this]
    decide
  · rfl
  · rfl

/-- C8 counterexample: with no provider able to answer, the enrichment
result for Schönheit has no source field at all (none), not the value
fallback the claim requires. -/
theorem fallback_enrichment_counterexample :
    (enrichGermanWord (fun _ => Except.error "not configured") "Schönheit" "beauty").source
      = none ∧
    (enrichGermanWord (fun _ => Except.error "not configured") "Schönheit" "beauty").source
      ≠ some "fallback" := by
  exact ⟨rfl, by decide⟩

/-- Witness for the amended C8 theorem with a concrete failing call
oracle. -/
theorem fallback_enrichment_schonheit_witness :
    (∀ m ∈ (["ollama", "openai", "anthropic"] : List String),
      ∃ e, (fun _ : String => (Except.error "no key" : Except String FallbackEnrichment)) m =
        Except.error e) ∧
    (enrichGermanWord (fun _ => Except.error "no key") "Schönheit" "beauty").article =
      some "die" ∧
    (enrichGermanWord (fun _ => Except.error "no key") "Schönheit" "beauty").source = none :=
  ⟨fun _ _ => ⟨"no key", rfl⟩,
    (fallback_enrichment_schonheit (fun _ => Except.error "no key") "beauty"
      (fun _ _ => ⟨"no key", rfl⟩)).2.1,
    (fallback_enrichment_schonheit (fun _ => Except.error "no key") "beauty"
      (fun _ _ => ⟨"no key", rfl⟩)).2.2.2.1⟩

end AIEnrichment

namespace VocabularyManager

/-- The object enrichVocabulary of src/services/vocabularyManager.js
resolves to: word carries the selected best word on success and the
requested word otherwise. -/
structure EnrichOutcome where
  success : Bool
  word : String
  wordId : Option ℕ
  data : Option DictResult
  error : Option String
deriving DecidableEq

/-- enrichVocabulary of src/services/vocabularyManager.js, with the
cache search modelled by its outcome (the thrown error or the result
list) and the database row id of saveWordToDatabase by saveId. -/
def enrichVocabulary (searchOutcome : Except String (List DictResult)) (saveId : ℕ)
    (word : String) : EnrichOutcome :=
  match searchOutcome with
  | Except.ok results =>
    if results.isEmpty then ⟨false, word, none, none, some "No results found"⟩
    else
      match selectBestResult results with
      | some best => ⟨true, best.word, some saveId, some best, none⟩
      | none => ⟨false, word, none, none, some "No results found"⟩
  | Except.error e => ⟨false, word, none, none, some e⟩

/-- The settled state of one promise of a batch, as
Promise.allSettled reports it. -/
inductive SettledOutcome where
  | fulfilled (value : EnrichOutcome)
  | rejected (reason : Option String)
deriving DecidableEq

/-- The per-word entry batchEnrichVocabulary pushes for one settled
promise: the fulfilled value, or a failure entry with
reason?.message || Unknown error. -/
def settleOne (f : String → SettledOutcome) (word : String) : EnrichOutcome :=
  match f word with
  | SettledOutcome.fulfilled v => v
  | SettledOutcome.rejected r =>
    ⟨false, word, none, none,
      some (match r with
        | some m => if m = "" then "Unknown error" else m
        | none => "Unknown error")⟩

/-- Observable scheduling events of batchEnrichVocabulary: the
dispatch of one batch of concurrent calls, and one inter-batch
delay. -/
inductive BatchEvent where
  | dispatched (batch : List String)
  | delayed (ms : ℕ)
deriving DecidableEq

/-- batchSize of batchEnrichVocabulary. -/
def batchSize : ℕ := 10

/-- Fuelled loop of batchEnrichVocabulary of
src/services/vocabularyManager.js: slice off one batch, dispatch its
calls concurrently and settle them in input order, append a delay event
when words remain, continue; the fuel only serves termination and is
instantiated with the word count. -/
def batchLoopF (f : String → SettledOutcome) :
    ℕ → List String → List EnrichOutcome × List BatchEvent
  | 0, _ => ([], [])
  | fuel + 1, words =>
    if words.isEmpty then ([], [])
    else
      let batch := words.take batchSize
      let rest := words.drop batchSize
      let settled := batch.map (settleOne f)
      let res := batchLoopF f fuel rest
      (settled ++ res.1,
        (BatchEvent.dispatched batch ::
          (if rest.isEmpty then [] else [BatchEvent.delayed 1000])) ++ res.2)

/-- batchEnrichVocabulary of src/services/vocabularyManager.js, with
each word's settled outcome given by the oracle f. -/
def batchEnrichVocabulary (f : String → SettledOutcome) (words : List String) :
    List EnrichOutcome × List BatchEvent :=
  batchLoopF f words.length words

/-- Number of dispatched batches in an event trace. -/
def countDispatches (evs : List BatchEvent) : ℕ :=
  (evs.filter fun e =>
    match e with
    | BatchEvent.dispatched _ => true
    | BatchEvent.delayed _ => false).length

/-- Number of inter-batch delays in an event trace. -/
def countDelays (evs : List BatchEvent) : ℕ :=
  (evs.filter fun e =>
    match e with
    | BatchEvent.dispatched _ => false
    | BatchEvent.delayed _ => true).length

theorem batchLoopF_ne (f : String → SettledOutcome) (fuel : ℕ) (words : List String)
    (h : words.isEmpty = false) :
    batchLoopF f (fuel + 1) words =
      ((words.take batchSize).map (settleOne f) ++
        (batchLoopF f fuel (words.drop batchSize)).1,
       (BatchEvent.dispatched (words.take batchSize) ::
         (if (words.drop batchSize).isEmpty then [] else [BatchEvent.delayed 1000])) ++
         (batchLoopF f fuel (words.drop batchSize)).2) := by
  simp only [batchLoopF, h]
  rfl

theorem batchLoopF_results (f : String → SettledOutcome) : ∀ (fuel : ℕ) (words : List String),
    words.length ≤ fuel → (batchLoopF f fuel words).1 = words.map (settleOne f) := by
  intro fuel
  induction fuel with
  | zero =>
    intro words h
    have : words = [] := List.eq_nil_of_length_eq_zero (Nat.le_zero.mp h)
    subst this; rfl
  | succ fuel ih =>
    intro words h
    cases hw : words.isEmpty with
    | true =>
      have : words = [] := by
        cases words with
        | nil => rfl
        | cons a t => simp at hw
      subst this; rfl
    | false =>
      rw [batchLoopF_ne f fuel words hw]
      have hlen : (words.drop batchSize).length ≤ fuel := by
        rw [List.length_drop]
        have hw0 : words.length ≠ 0 := by
          cases words with
          | nil => simp at hw
          | cons a t => simp
        simp only [batchSize]
        omega
      simp only [ih (words.drop batchSize) hlen]
      rw [← List.map_append, List.take_append_drop]

/-- C9: on a list of twenty-five words with batch size ten, batch
enrichment dispatches exactly three batches separated by exactly two
inter-batch delays, and the settled per-word outcomes appear in the
output in input order — each word's entry is determined by its own
settled outcome alone, so a failed word never aborts its batch, and
the order is independent of completion order because allSettled
reports outcomes by promise index. -/
theorem batchEnrich_25_words (f : String → SettledOutcome) (words : List String)
    (h : words.length = 25) :
    (batchEnrichVocabulary f words).1 = words.map (settleOne f) ∧
    countDispatches (batchEnrichVocabulary f words).2 = 3 ∧
    countDelays (batchEnrichVocabulary f words).2 = 2 := by
  have hres : (batchEnrichVocabulary f words).1 = words.map (settleOne f) :=
    batchLoopF_results f words.length words le_rfl
  have hne : ∀ (l : List String), l.length ≠ 0 → l.isEmpty = false := by
    intro l hl
    cases l with
    | nil => simp at hl
    | cons a t => rfl
  have h1 : words.isEmpty = false := hne words (by omega)
  have hd1 : (words.drop batchSize).length = 15 := by
    rw [List.length_drop, h]; rfl
  have h2 : (words.drop batchSize).isEmpty = false := hne _ (by omega)
  have hd2 : ((words.drop batchSize).drop batchSize).length = 5 := by
    rw [List.length_drop, hd1]; rfl
  have h3 : ((words.drop batchSize).drop batchSize).isEmpty = false := hne _ (by omega)
  have hd3 : (((words.drop batchSize).drop batchSize).drop batchSize).length = 0 := by
    rw [List.length_drop, hd2]
    rfl
  have h4 : ((words.drop batchSize).drop batchSize).drop batchSize = [] :=
    List.eq_nil_of_length_eq_zero hd3
  have hev : (batchEnrichVocabulary f words).2 =
      BatchEvent.dispatched (words.take batchSize) :: BatchEvent.delayed 1000 ::
      BatchEvent.dispatched ((words.drop batchSize).take batchSize) ::
        BatchEvent.delayed 1000 ::
      [BatchEvent.dispatched (((words.drop batchSize).drop batchSize).take batchSize)] := by
    show (batchLoopF f words.length words).2 = _
    rw [h]
    rw [show (25 : ℕ) = 24 + 1 from rfl, batchLoopF_ne f 24 words h1]
    rw [show (24 : ℕ) = 23 + 1 from rfl, batchLoopF_ne f 23 _ h2]
    rw [show (23 : ℕ) = 22 + 1 from rfl, batchLoopF_ne f 22 _ h3]
    rw [h4]
    simp [batchLoopF, h2, h3, h, batchSize]
  refine ⟨hres, ?_, ?_⟩
  · rw [hev]
    simp [countDispatches, List.filter]
  · rw [hev]
    simp [countDelays, List.filter]

/-- Witness for the C9 theorem on a concrete list of twenty-five words
and a concrete outcome oracle. -/
theorem batchEnrich_25_words_witness :
    (List.replicate 25 "Wort").length = 25 ∧
    countDispatches
      (batchEnrichVocabulary (fun _ => SettledOutcome.rejected none)
        (List.replicate 25 "Wort")).2 = 3 ∧
    countDelays
      (batchEnrichVocabulary (fun _ => SettledOutcome.rejected none)
        (List.replicate 25 "Wort")).2 = 2 :=
  ⟨by simp,
    (batchEnrich_25_words (fun _ => SettledOutcome.rejected none)
      (List.replicate 25 "Wort") (by simp)).2.1,
    (batchEnrich_25_words (fun _ => SettledOutcome.rejected none)
      (List.replicate 25 "Wort") (by simp)).2.2⟩

end VocabularyManager

namespace Dictionaries

/-- The two dictionary providers, in priority order. -/
inductive Provider where
  | pons
  | linguatools
deriving DecidableEq

/-- The provider-relevant state of the DictionaryAPIs singleton: which
keys are configured and the two quota entries. -/
structure ApisState where
  ponsKeyConfigured : Bool
  linguatoolsKeyConfigured : Bool
  ponsQuota : QuotaState
  linguatoolsQuota : QuotaState
deriving DecidableEq

/-- The quota entry of a provider. -/
def getQuota (s : ApisState) : Provider → QuotaState
  | Provider.pons => s.ponsQuota
  | Provider.linguatools => s.linguatoolsQuota

/-- Replace the quota entry of a provider. -/
def setQuota (s : ApisState) : Provider → QuotaState → ApisState
  | Provider.pons, q => { s with ponsQuota := q }
  | Provider.linguatools, q => { s with linguatoolsQuota := q }

/-- hasQuotaAvailable lifted to the full state: it mutates the quota
entry of the provider it checks. -/
def hasQuotaAvailableS (s : ApisState) (api : Provider) (now : SimTime) : Bool × ApisState :=
  let bq := hasQuotaAvailable (getQuota s api) now
  (bq.1, setQuota s api bq.2)

/-- searchPONS of src/api/dictionaries.js: throw on a missing key,
throw on exhausted quota, otherwise perform the network request (the
ponsNet oracle, standing for the HTTP call plus parsePONSResponse),
incrementing the quota on success; the trace component lists the
providers whose network was actually contacted. -/
def searchPONS (ponsNet : Except String (List VocabularyManager.DictResult))
    (s : ApisState) (now : SimTime) :
    Except String (List VocabularyManager.DictResult) × ApisState × List Provider :=
  if !s.ponsKeyConfigured then (Except.error "PONS API key not configured", s, [])
  else
    let q1 := hasQuotaAvailableS s Provider.pons now
    if !q1.1 then (Except.error "PONS API quota exceeded", q1.2, [])
    else
      match ponsNet with
      | Except.ok parsed =>
        (Except.ok parsed,
          setQuota q1.2 Provider.pons (incrementQuotaUsage (getQuota q1.2 Provider.pons)),
          [Provider.pons])
      | Except.error e => (Except.error e, q1.2, [Provider.pons])

/-- searchLinguatools of src/api/dictionaries.js, mirror of
searchPONS. -/
def searchLinguatools (linNet : Except String (List VocabularyManager.DictResult))
    (s : ApisState) (now : SimTime) :
    Except String (List VocabularyManager.DictResult) × ApisState × List Provider :=
  if !s.linguatoolsKeyConfigured then
    (Except.error "Linguatools API key not configured", s, [])
  else
    let q1 := hasQuotaAvailableS s Provider.linguatools now
    if !q1.1 then (Except.error "Linguatools API quota exceeded", q1.2, [])
    else
      match linNet with
      | Except.ok parsed =>
        (Except.ok parsed,
          setQuota q1.2 Provider.linguatools
            (incrementQuotaUsage (getQuota q1.2 Provider.linguatools)),
          [Provider.linguatools])
      | Except.error e => (Except.error e, q1.2, [Provider.linguatools])

/-- searchWithFallback of src/api/dictionaries.js: try PONS when its
quota allows, catching any failure; then try Linguatools only when its
quota allows and the result list is still empty, catching any failure;
return whatever was collected. -/
def searchWithFallback (ponsNet linNet : Except String (List VocabularyManager.DictResult))
    (s : ApisState) (now : SimTime) :
    List VocabularyManager.DictResult × ApisState × List Provider :=
  let q1 := hasQuotaAvailableS s Provider.pons now
  let step1 : List VocabularyManager.DictResult × ApisState × List Provider :=
    if q1.1 then
      match searchPONS ponsNet q1.2 now with
      | (Except.ok rs, s2, t) => (rs, s2, t)
      | (Except.error _, s2, t) => ([], s2, t)
    else ([], q1.2, [])
  let q2 := hasQuotaAvailableS step1.2.1 Provider.linguatools now
  if q2.1 && step1.1.isEmpty then
    match searchLinguatools linNet q2.2 now with
    | (Except.ok rs, s3, t) => (step1.1 ++ rs, s3, step1.2.2 ++ t)
    | (Except.error _, s3, t) => (step1.1, s3, step1.2.2 ++ t)
  else (step1.1, q2.2, step1.2.2)

theorem setQuota_ponsKey (s : ApisState) (p : Provider) (q : QuotaState) :
    (setQuota s p q).ponsKeyConfigured = s.ponsKeyConfigured := by
  cases p <;> rfl

theorem setQuota_linKey (s : ApisState) (p : Provider) (q : QuotaState) :
    (setQuota s p q).linguatoolsKeyConfigured = s.linguatoolsKeyConfigured := by
  cases p <;> rfl

theorem getQuota_setQuota_same (s : ApisState) (p : Provider) (q : QuotaState) :
    getQuota (setQuota s p q) p = q := by
  cases p <;> rfl

theorem setQuota_setQuota (s : ApisState) (p : Provider) (q q' : QuotaState) :
    setQuota (setQuota s p q) p q' = setQuota s p q' := by
  cases p <;> rfl

theorem timeLe_startOfNextMonth (t : SimTime) : timeLe (startOfNextMonth t) t = false := by
  simp only [timeLe, startOfNextMonth]
  simp only [Bool.or_eq_false_iff, decide_eq_false_iff_not, Bool.and_eq_false_iff,
    decide_eq_false_iff_not, not_lt]
  omega

theorem hasQuotaAvailable_idem (q : QuotaState) (now : SimTime) :
    hasQuotaAvailable (hasQuotaAvailable q now).2 now = hasQuotaAvailable q now := by
  by_cases h : timeLe q.resetDate now = true
  · simp [hasQuotaAvailable, h, timeLe_startOfNextMonth]
  · have h' : timeLe q.resetDate now = false := by simpa using h
    simp [hasQuotaAvailable, h']

theorem hasQuotaAvailableS_idem (s : ApisState) (p : Provider) (now : SimTime) :
    hasQuotaAvailableS (hasQuotaAvailableS s p now).2 p now = hasQuotaAvailableS s p now := by
  unfold hasQuotaAvailableS
  simp only [getQuota_setQuota_same, hasQuotaAvailable_idem, setQuota_setQuota]

end Dictionaries

namespace VocabularyManager

/-- searchVocabulary of src/services/vocabularyManager.js: permanent
store first (the dbWord oracle models getWordFromDatabase); on a store
miss and with at least one API key configured, consult the cache, whose
search no longer performs any provider call (the dictionary API calls
were removed from vocabularyCache.searchWord); the best nonempty result
is persisted.  The last component is the trace of providers whose
network was contacted. -/
def searchVocabulary (dbWord : Option DictResult) (hasKeys : Bool)
    (cache : VocabularyCache.CacheState (List DictResult)) (now : ℕ) (word : String) :
    List DictResult × Option DictResult × List Dictionaries.Provider :=
  match dbWord with
  | some w => ([w], none, [])
  | none =>
    if hasKeys then
      let found := (VocabularyCache.searchWord cache now word "de" "en").1
      let results := found.getD []
      let saved := if results.isEmpty then none else selectBestResult results
      (results, saved, [])
    else ([], none, [])

/-- C7 (amended): in search mode no provider adapter is ever called —
on a store and cache miss the engine returns an empty result without
contacting any provider, because the cache search has had its API calls
removed; the legacy searchWithFallback helper does call PONS first with
each failure caught, but contacts Linguatools only when the PONS
attempt left the result list empty, rather than collecting candidates
of every usable provider. -/
theorem searchVocabulary_no_provider_calls :
    (∀ (dbWord : Option DictResult) (hasKeys : Bool)
       (cache : VocabularyCache.CacheState (List DictResult)) (now : ℕ) (word : String),
       (searchVocabulary dbWord hasKeys cache now word).2.2 = []) ∧
    (∀ (ponsNet linNet : Except String (List DictResult)) (s : Dictionaries.ApisState)
       (now : Dictionaries.SimTime) (rs : List DictResult),
       s.ponsKeyConfigured = true →
       (Dictionaries.hasQuotaAvailableS s Dictionaries.Provider.pons now).1 = true →
       ponsNet = Except.ok rs → rs ≠ [] →
       (Dictionaries.searchWithFallback ponsNet linNet s now).1 = rs ∧
       (Dictionaries.searchWithFallback ponsNet linNet s now).2.2 =
         [Dictionaries.Provider.pons]) ∧
    (∀ (ponsNet linNet : Except String (List DictResult)) (s : Dictionaries.ApisState)
       (now : Dictionaries.SimTime) (e : String) (rs : List DictResult),
       s.ponsKeyConfigured = true →
       (Dictionaries.hasQuotaAvailableS s Dictionaries.Provider.pons now).1 = true →
       ponsNet = Except.error e →
       ((Dictionaries.hasQuotaAvailableS s Dictionaries.Provider.pons now).2).linguatoolsKeyConfigured = true →
       (Dictionaries.hasQuotaAvailableS
         (Dictionaries.hasQuotaAvailableS s Dictionaries.Provider.pons now).2
         Dictionaries.Provider.linguatools now).1 = true →
       linNet = Except.ok rs →
       (Dictionaries.searchWithFallback ponsNet linNet s now).1 = rs ∧
       (Dictionaries.searchWithFallback ponsNet linNet s now).2.2 =
         [Dictionaries.Provider.pons, Dictionaries.Provider.linguatools]) := by
  refine ⟨?_, ?_, ?_⟩
  · intro dbWord hasKeys cache now word
    cases dbWord with
    | some w => rfl
    | none =>
      cases hasKeys <;> simp [searchVocabulary]
  · intro ponsNet linNet s now rs hk hq hnet hrs
    subst hnet
    have hpk : ((Dictionaries.hasQuotaAvailableS s Dictionaries.Provider.pons now).2).ponsKeyConfigured = true := by
      unfold Dictionaries.hasQuotaAvailableS
      rw [Dictionaries.setQuota_ponsKey]
      exact hk
    have hpons : Dictionaries.searchPONS (Except.ok rs)
        (Dictionaries.hasQuotaAvailableS s Dictionaries.Provider.pons now).2 now =
        (Except.ok rs,
          Dictionaries.setQuota (Dictionaries.hasQuotaAvailableS s Dictionaries.Provider.pons now).2
            Dictionaries.Provider.pons
            (Dictionaries.incrementQuotaUsage
              (Dictionaries.getQuota
                (Dictionaries.hasQuotaAvailableS s Dictionaries.Provider.pons now).2
                Dictionaries.Provider.pons)),
          [Dictionaries.Provider.pons]) := by
      unfold Dictionaries.searchPONS
      rw [hpk]
      simp only [Bool.not_true, Bool.false_eq_true, if_false]
      rw [Dictionaries.hasQuotaAvailableS_idem, hq]
      rfl
    unfold Dictionaries.searchWithFallback
    simp only [hq, if_true, hpons]
    have hempty : rs.isEmpty = false := by
      cases rs with
      | nil => exact absurd rfl hrs
      | cons a t => rfl
    simp only [hempty, Bool.and_false, Bool.false_eq_true, if_false]
    refine ⟨?_, ?_⟩ <;> simp
  · intro ponsNet linNet s now e rs hk hq hnet hlk hlq hlnet
    subst hnet
    subst hlnet
    have hpk : ((Dictionaries.hasQuotaAvailableS s Dictionaries.Provider.pons now).2).ponsKeyConfigured = true := by
      unfold Dictionaries.hasQuotaAvailableS
      rw [Dictionaries.setQuota_ponsKey]
      exact hk
    have hpons : Dictionaries.searchPONS (Except.error e)
        (Dictionaries.hasQuotaAvailableS s Dictionaries.Provider.pons now).2 now =
        (Except.error e,
          (Dictionaries.hasQuotaAvailableS s Dictionaries.Provider.pons now).2,
          [Dictionaries.Provider.pons]) := by
      unfold Dictionaries.searchPONS
      rw [hpk]
      simp only [Bool.not_true, Bool.false_eq_true, if_false]
      rw [Dictionaries.hasQuotaAvailableS_idem, hq]
      rfl
    have hlk2 : ((Dictionaries.hasQuotaAvailableS
        (Dictionaries.hasQuotaAvailableS s Dictionaries.Provider.pons now).2
        Dictionaries.Provider.linguatools now).2).linguatoolsKeyConfigured = true := by
      unfold Dictionaries.hasQuotaAvailableS
      rw [Dictionaries.setQuota_linKey]
      exact hlk
    have hlin : Dictionaries.searchLinguatools (Except.ok rs)
        (Dictionaries.hasQuotaAvailableS
          (Dictionaries.hasQuotaAvailableS s Dictionaries.Provider.pons now).2
          Dictionaries.Provider.linguatools now).2 now =
        (Except.ok rs,
          Dictionaries.setQuota
            (Dictionaries.hasQuotaAvailableS
              (Dictionaries.hasQuotaAvailableS s Dictionaries.Provider.pons now).2
              Dictionaries.Provider.linguatools now).2
            Dictionaries.Provider.linguatools
            (Dictionaries.incrementQuotaUsage
              (Dictionaries.getQuota
                (Dictionaries.hasQuotaAvailableS
                  (Dictionaries.hasQuotaAvailableS s Dictionaries.Provider.pons now).2
                  Dictionaries.Provider.linguatools now).2
                Dictionaries.Provider.linguatools)),
          [Dictionaries.Provider.linguatools]) := by
      unfold Dictionaries.searchLinguatools
      rw [hlk2]
      simp only [Bool.not_true, Bool.false_eq_true, if_false]
      rw [Dictionaries.hasQuotaAvailableS_idem, hlq]
      rfl
    unfold Dictionaries.searchWithFallback
    simp only [hq, if_true, hpons]
    simp only [hlq, List.isEmpty_nil, Bool.and_true, if_true, hlin]
    refine ⟨?_, ?_⟩ <;> simp

/-- C7 counterexample: with the permanent store and both cache tiers
empty, API keys configured and full quota available, search mode
returns an empty result and its provider trace is empty — no adapter is
called, where the claim demands that the providers be consulted in
priority order with their candidates collected. -/
theorem searchVocabulary_no_provider_calls_counterexample :
    (Dictionaries.hasQuotaAvailable ⟨0, 1000, ⟨99, 0⟩⟩ ⟨0, 0⟩).1 = true ∧
    searchVocabulary none true ⟨[], []⟩ 0 "Haus" = ([], none, []) := by
  exact ⟨by decide, by decide⟩

/-- Witness for the amended C7 theorem on a concrete state with both
keys configured and fresh quotas. -/
theorem searchVocabulary_no_provider_calls_witness :
    (searchVocabulary none true ⟨[], []⟩ 0 "Haus").2.2 = [] ∧
    ((Dictionaries.searchWithFallback
        (Except.ok [⟨"Haus", some "das", some "house", none, "pons", 1, 0⟩])
        (Except.ok [⟨"Haus", some "das", some "house", none, "linguatools", 1, 0⟩])
        ⟨true, true, ⟨0, 1000, ⟨99, 0⟩⟩, ⟨0, 1000, ⟨99, 0⟩⟩⟩ ⟨0, 0⟩).1 =
      [⟨"Haus", some "das", some "house", none, "pons", 1, 0⟩] ∧
    (Dictionaries.searchWithFallback
        (Except.ok [⟨"Haus", some "das", some "house", none, "pons", 1, 0⟩])
        (Except.ok [⟨"Haus", some "das", some "house", none, "linguatools", 1, 0⟩])
        ⟨true, true, ⟨0, 1000, ⟨99, 0⟩⟩, ⟨0, 1000, ⟨99, 0⟩⟩⟩ ⟨0, 0⟩).2.2 =
      [Dictionaries.Provider.pons]) :=
  ⟨searchVocabulary_no_provider_calls.1 none true ⟨[], []⟩ 0 "Haus",
    searchVocabulary_no_provider_calls.2.1
      (Except.ok [⟨"Haus", some "das", some "house", none, "pons", 1, 0⟩])
      (Except.ok [⟨"Haus", some "das", some "house", none, "linguatools", 1, 0⟩])
      ⟨true, true, ⟨0, 1000, ⟨99, 0⟩⟩, ⟨0, 1000, ⟨99, 0⟩⟩⟩ ⟨0, 0⟩
      [⟨"Haus", some "das", some "house", none, "pons", 1, 0⟩]
      rfl (by decide) rfl (by simp)⟩

end VocabularyManager
